import Mathlib

/-!
Verification development for the basealloc heap allocator.

Each section embeds one component of the allocator as executable Lean
definitions translated from the Rust sources, and proves (or refutes)
the specified properties about them.

Address arithmetic is modelled over `Nat`; `usize` counters that can wrap
are taken modulo `2 ^ 64` where the source relies on wrapping semantics.
-/

set_option maxRecDepth 4000

namespace Basealloc

/-! ## Size classes (crates/basealloc-alloc/src/classes.rs)

The embedding fixes the 64-bit target: `WORD = size_of::<usize>() = 8`.
-/

namespace Classes

def WORD : Nat := 8

def BITS_PER_BYTE : Nat := 8

def WORD_BITS : Nat := WORD * BITS_PER_BYTE

/-- WORD.trailing_zeros() for WORD = 8. -/
def WORD_TRAILING : Nat := 3

def QUANTUM : Nat := WORD * 2

def NGROUPSEX : Nat := 2

def NGROUPS : Nat := 1 <<< NGROUPSEX

def NTINY : Nat := NGROUPS * QUANTUM

def TINY_CUTOFF : Nat := NTINY * QUANTUM

/-- Highest set bit of `size` below bit `k`, scanning downward; 0 when none.
This is the loop-free counterpart of `usize::BITS - leading_zeros - 1`
used by `class_for_regular` in classes.rs. -/
def hbLoop : Nat → Nat → Nat
  | 0, _ => 0
  | k + 1, size => if size >>> k % 2 = 1 then k else hbLoop k size

/-- Floor of log2 over the 64-bit range, as computed by
`(usize::BITS - size.leading_zeros()) - 1` in classes.rs. -/
def floorLog2 (size : Nat) : Nat := hbLoop 64 size

/-- classes.rs `log2c`: decrement, then count right-shifts until zero.
That count is the bit length of `x - 1`. -/
def log2c (x : Nat) : Nat := if x - 1 = 0 then 0 else floorLog2 (x - 1) + 1

def FIRST_REGULAR : Nat := log2c TINY_CUTOFF

def MAX_REGULAR : Nat := 2 * WORD_BITS / 6

def NREGULAR : Nat := (MAX_REGULAR - FIRST_REGULAR) * NGROUPS

def NSCLASSES : Nat := NTINY + NREGULAR

def SCLASS_CUTOFF : Nat := 1 <<< MAX_REGULAR

def LOOKUP_SHIFT : Nat := WORD_TRAILING + 1

def CACHE_MIN : Nat := 8

def CACHE_MAX : Nat := 200

/-- classes.rs `generate_classes`: tiny classes spaced by QUANTUM, then
NGROUPS classes per power-of-two group from FIRST_REGULAR to MAX_REGULAR.
Only the size component of each `SizeClass(size, idx)` is kept; the index
is the list position. -/
def generate_classes : List Nat :=
  ((List.range NTINY).map (fun i => (i + 1) * QUANTUM)) ++
  ((List.range (MAX_REGULAR - FIRST_REGULAR)).flatMap (fun g =>
    (List.range NGROUPS).map (fun i =>
      (1 <<< (FIRST_REGULAR + g)) + ((1 <<< (FIRST_REGULAR + g)) >>> NGROUPSEX) * (i + 1))))

def CLASSES : List Nat := generate_classes

def class_size (idx : Nat) : Nat := CLASSES.getD idx 0

/-- classes.rs `generate_tiny_lookup`: `table[i] = ((i+1) << LOOKUP_SHIFT)
.div_ceil(QUANTUM) - 1` stored as `u8` (hence the mod 256). -/
def generate_tiny_lookup : List Nat :=
  (List.range (TINY_CUTOFF >>> LOOKUP_SHIFT)).map (fun i =>
    ((((i + 1) <<< LOOKUP_SHIFT) + QUANTUM - 1) / QUANTUM - 1) % 256)

def TINY_LOOKUP : List Nat := generate_tiny_lookup

/-- classes.rs `class_for_regular`. -/
def class_for_regular (size : Nat) : Nat :=
  let log := floorLog2 size
  let base := 1 <<< log
  let delta := base >>> NGROUPSEX
  let offset := if size > base then (size - base - 1) / delta else 0
  NTINY + (log - FIRST_REGULAR) * NGROUPS + offset

/-- classes.rs `class_for`. -/
def class_for (size : Nat) : Option Nat :=
  if size = 0 ∨ size ≥ SCLASS_CUTOFF then none
  else if size ≤ TINY_CUTOFF then some (TINY_LOOKUP.getD ((size - 1) >>> LOOKUP_SHIFT) 0)
  else some (class_for_regular size)

/-- classes.rs `generate_cache_sizes`: `scale.clamp(CACHE_MIN, CACHE_MAX)`
slots, stored as `CacheSize(nslots * size)` where `size` is the class
region size. -/
def generate_cache_sizes : List Nat :=
  (List.range NSCLASSES).map (fun i =>
    let size := class_size i
    let scale := SCLASS_CUTOFF / size
    let nslots := min (max scale CACHE_MIN) CACHE_MAX
    nslots * size)

def CACHE_SIZES : List Nat := generate_cache_sizes

/-- classes.rs `cache_for`. -/
def cache_for (idx : Nat) : Nat := CACHE_SIZES.getD idx 0

theorem hbLoop_spec : ∀ k size : Nat, 0 < size → size < 2 ^ k →
    2 ^ hbLoop k size ≤ size ∧ size < 2 ^ (hbLoop k size + 1) := by
  intro k
  induction k with
  | zero =>
    intro size h0 hk
    simp only [pow_zero] at hk
    omega
  | succ k ih =>
    intro size h0 hk
    simp only [hbLoop, Nat.shiftRight_eq_div_pow]
    by_cases hbit : size / 2 ^ k % 2 = 1
    · rw [if_pos hbit]
      refine ⟨?_, hk⟩
      have hdiv : size / 2 ^ k ≠ 0 := by
        intro h
        rw [h] at hbit
        simp at hbit
      have h1 : 1 ≤ size / 2 ^ k := Nat.pos_of_ne_zero hdiv
      have := (Nat.le_div_iff_mul_le (pow_pos (by norm_num : (0 : Nat) < 2) k)).mp h1
      simpa using this
    · rw [if_neg hbit]
      apply ih size h0
      have hlt2 : size / 2 ^ k < 2 := by
        apply Nat.div_lt_of_lt_mul
        calc size < 2 ^ (k + 1) := hk
          _ = 2 ^ k * 2 := by rw [pow_succ]
      have hcase : size / 2 ^ k = 0 ∨ size / 2 ^ k = 1 := by
        generalize size / 2 ^ k = q at hlt2
        omega
      rcases hcase with hz | ho
      · exact (Nat.div_eq_zero_iff (pow_pos (by norm_num : (0 : Nat) < 2) k)).mp hz
      · exfalso
        rw [ho] at hbit
        simp at hbit

theorem floorLog2_spec (size : Nat) (h0 : 0 < size) (h64 : size < 2 ^ 64) :
    2 ^ floorLog2 size ≤ size ∧ size < 2 ^ (floorLog2 size + 1) :=
  hbLoop_spec 64 size h0 h64

theorem tiny_lookup_getD : ∀ i < 64, TINY_LOOKUP.getD i 0 = i := by decide

theorem class_size_tiny : ∀ c < 64, class_size c = (c + 1) * 16 := by decide

theorem class_size_reg :
    ∀ g < 11, ∀ i < 4, class_size (64 + 4 * g + i) = 2 ^ (10 + g) + 2 ^ (8 + g) * (i + 1) := by
  decide

theorem pow_between_unique {l k size : Nat} (hlo : 2 ^ l ≤ size) (hhi : size < 2 ^ (l + 1))
    (hk : size = 2 ^ k) : k = l := by
  subst hk
  have h1 : l ≤ k := by
    by_contra h
    push_neg at h
    have : (2 : Nat) ^ k < 2 ^ l := Nat.pow_lt_pow_right (by norm_num) h
    omega
  have h2 : k < l + 1 := by
    by_contra h
    push_neg at h
    have : (2 : Nat) ^ (l + 1) ≤ 2 ^ k := Nat.pow_le_pow_right (by norm_num) h
    omega
  omega

theorem two_pow_split (a c : Nat) (h : c ≤ a) : 2 ^ a = 2 ^ c * 2 ^ (a - c) := by
  rw [← pow_add]
  congr 1
  omega

theorem class_size_group (l i : Nat) (h10 : 10 ≤ l) (h20 : l ≤ 20) (hi : i < 4) :
    class_size (64 + (l - 10) * 4 + i) = 4 * 2 ^ (l - 2) + 2 ^ (l - 2) * (i + 1) := by
  have harr : 64 + (l - 10) * 4 + i = 64 + 4 * (l - 10) + i := by ring_nf
  rw [harr, class_size_reg (l - 10) (by omega) i hi]
  have e1 : 10 + (l - 10) = l := by omega
  have e2 : 8 + (l - 10) = l - 2 := by omega
  rw [e1, e2, two_pow_split l 2 (by omega)]
  norm_num

theorem class_size_group_last (l : Nat) (h11 : 11 ≤ l) (h20 : l ≤ 20) :
    class_size (64 + (l - 10) * 4 - 1) = 2 ^ l := by
  have harr : 64 + (l - 10) * 4 - 1 = 64 + 4 * (l - 11) + 3 := by omega
  rw [harr, class_size_reg (l - 11) (by omega) 3 (by omega)]
  have e1 : 10 + (l - 11) = l - 1 := by omega
  have e2 : 8 + (l - 11) = l - 3 := by omega
  rw [e1, e2]
  have g1 : 2 ^ (l - 1) = 4 * 2 ^ (l - 3) := by
    rw [two_pow_split (l - 1) 2 (by omega)]
    have e3 : l - 1 - 2 = l - 3 := by omega
    rw [e3]
    norm_num
  have g2 : 2 ^ l = 8 * 2 ^ (l - 3) := by
    rw [two_pow_split l 3 (by omega)]
    norm_num
  rw [g1, g2]
  ring

theorem class_for_regular_eq (size : Nat) (hl2 : 2 ≤ floorLog2 size) :
    class_for_regular size =
      64 + (floorLog2 size - 10) * 4 +
        (if 2 ^ floorLog2 size < size then
          (size - 2 ^ floorLog2 size - 1) / 2 ^ (floorLog2 size - 2) else 0) := by
  have hFR : FIRST_REGULAR = 10 := by decide
  have hNT : NTINY = 64 := by decide
  have hNG : NGROUPS = 4 := by decide
  have hNX : NGROUPSEX = 2 := by decide
  have hdiv : 2 ^ floorLog2 size / 2 ^ 2 = 2 ^ (floorLog2 size - 2) :=
    Nat.pow_div hl2 (by norm_num)
  simp only [class_for_regular, hFR, hNT, hNG, hNX, Nat.shiftLeft_eq, one_mul,
    Nat.shiftRight_eq_div_pow, hdiv, gt_iff_lt]

/-- C1 (amended): `class_for size` is `none` iff `size = 0` or
`size ≥ SCLASS_CUTOFF`; otherwise it returns `some c` with
`CLASSES[c].size ≥ size`, and `c` is the unique smallest such class
except when `size` is a power of two with `TINY_CUTOFF < size`
(`size ∈ {2^11, …, 2^20}`), in which case the code returns the class one
above the smallest one: `CLASSES[c-1].size = size`. -/
theorem class_for_spec (size : Nat) :
    (class_for size = none ↔ (size = 0 ∨ SCLASS_CUTOFF ≤ size)) ∧
    (0 < size → size < SCLASS_CUTOFF →
      ∃ c, class_for size = some c ∧ size ≤ class_size c ∧
        ((size ≤ TINY_CUTOFF ∨ ¬ (∃ k, size = 2 ^ k)) → (c = 0 ∨ class_size (c - 1) < size)) ∧
        (TINY_CUTOFF < size → (∃ k, size = 2 ^ k) → class_size (c - 1) = size)) := by
  have hC : SCLASS_CUTOFF = 2097152 := by decide
  have hT : TINY_CUTOFF = 1024 := by decide
  constructor
  · constructor
    · intro h
      by_contra hc
      simp only [class_for, ge_iff_le, if_neg hc] at h
      split at h <;> exact Option.noConfusion h
    · intro h
      simp only [class_for, ge_iff_le, if_pos h]
  · intro h1 h2
    by_cases htiny : size ≤ TINY_CUTOFF
    · -- tiny path: c = (size - 1) / 16
      have hcond : ¬(size = 0 ∨ SCLASS_CUTOFF ≤ size) := by omega
      have hshift : (size - 1) >>> LOOKUP_SHIFT = (size - 1) / 16 := by
        rw [Nat.shiftRight_eq_div_pow]
        norm_num [LOOKUP_SHIFT, WORD_TRAILING]
      have hqlt : (size - 1) / 16 < 64 := by omega
      refine ⟨(size - 1) / 16, ?_, ?_, ?_, ?_⟩
      · simp only [class_for, ge_iff_le, if_neg hcond, if_pos htiny, hshift]
        rw [tiny_lookup_getD _ hqlt]
      · rw [class_size_tiny _ hqlt]
        omega
      · intro _
        by_cases hq0 : (size - 1) / 16 = 0
        · exact Or.inl hq0
        · refine Or.inr ?_
          rw [class_size_tiny _ (by omega)]
          omega
      · intro hT2 _
        omega
    · -- regular path
      push_neg at htiny
      have h64 : size < 2 ^ 64 := by
        have : (2097152 : Nat) < 2 ^ 64 := by norm_num
        omega
      obtain ⟨hlo, hhi⟩ := floorLog2_spec size h1 h64
      have hl10 : 10 ≤ floorLog2 size := by
        by_contra hlt
        push_neg at hlt
        have hle : 2 ^ (floorLog2 size + 1) ≤ 2 ^ 10 :=
          Nat.pow_le_pow_right (by norm_num) (by omega)
        have h10 : (2 : Nat) ^ 10 = 1024 := by norm_num
        omega
      have hl20 : floorLog2 size ≤ 20 := by
        by_contra hgt
        push_neg at hgt
        have hle : (2 : Nat) ^ 21 ≤ 2 ^ floorLog2 size :=
          Nat.pow_le_pow_right (by norm_num) (by omega)
        have h21 : (2 : Nat) ^ 21 = 2097152 := by norm_num
        omega
      have hcond : ¬(size = 0 ∨ SCLASS_CUTOFF ≤ size) := by omega
      have hnt : ¬ size ≤ TINY_CUTOFF := by omega
      have hcf : class_for size = some (class_for_regular size) := by
        simp only [class_for, ge_iff_le, if_neg hcond, if_neg hnt]
      have hcfr := class_for_regular_eq size (by omega)
      generalize hldef : floorLog2 size = l at hlo hhi hl10 hl20 hcfr
      have h4b : 2 ^ l = 4 * 2 ^ (l - 2) := by
        rw [two_pow_split l 2 (by omega)]
        norm_num
      have h8b : 2 ^ (l + 1) = 8 * 2 ^ (l - 2) := by
        rw [two_pow_split (l + 1) 3 (by omega)]
        have e3 : l + 1 - 3 = l - 2 := by omega
        rw [e3]
        norm_num
      have hBpos : 0 < 2 ^ (l - 2) := pow_pos (by norm_num) _
      by_cases hgt : 2 ^ l < size
      · -- size strictly above the group base: the minimal class is returned
        rw [if_pos hgt] at hcfr
        have hoffle : (size - 2 ^ l - 1) / 2 ^ (l - 2) ≤ 3 := by
          have hstep : size - 2 ^ l - 1 ≤ 4 * 2 ^ (l - 2) - 2 := by omega
          have hq : (4 * 2 ^ (l - 2) - 2) / 2 ^ (l - 2) < 4 := by
            rw [Nat.div_lt_iff_lt_mul hBpos]
            omega
          have hmono : (size - 2 ^ l - 1) / 2 ^ (l - 2) ≤ (4 * 2 ^ (l - 2) - 2) / 2 ^ (l - 2) :=
            Nat.div_le_div_right hstep
          omega
        have hdm := Nat.div_add_mod (size - 2 ^ l - 1) (2 ^ (l - 2))
        have hmod : (size - 2 ^ l - 1) % 2 ^ (l - 2) < 2 ^ (l - 2) := Nat.mod_lt _ hBpos
        have hnpow : ¬ ∃ k, size = 2 ^ k := by
          rintro ⟨k, hk⟩
          have hkl := pow_between_unique hlo hhi hk
          subst hkl
          omega
        have hcs := class_size_group l ((size - 2 ^ l - 1) / 2 ^ (l - 2)) hl10 hl20 (by omega)
        have hcsp := class_size_group l ((size - 2 ^ l - 1) / 2 ^ (l - 2) - 1) hl10 hl20
          (by omega)
        generalize hDdef : (size - 2 ^ l - 1) / 2 ^ (l - 2) = D at hoffle hdm hcs hcsp hcfr
        generalize hRdef : (size - 2 ^ l - 1) % 2 ^ (l - 2) = R at hdm hmod
        have hms : (2 : Nat) ^ (l - 2) * (D + 1) = 2 ^ (l - 2) * D + 2 ^ (l - 2) := by ring
        refine ⟨class_for_regular size, hcf, ?_, ?_, ?_⟩
        · rw [hcfr, hcs, hms]
          omega
        · intro _
          refine Or.inr ?_
          rw [hcfr]
          by_cases hoff0 : D = 0
          · rw [hoff0]
            by_cases hl10e : l = 10
            · subst hl10e
              have hcs63 : class_size 63 = 1024 := by decide
              have h10 : (2 : Nat) ^ 10 = 1024 := by norm_num
              norm_num
              rw [hcs63]
              omega
            · have hl11 : 11 ≤ l := by omega
              have hprev := class_size_group_last l hl11 hl20
              have e : 64 + (l - 10) * 4 + 0 - 1 = 64 + (l - 10) * 4 - 1 := by omega
              rw [e, hprev]
              omega
          · have e : 64 + (l - 10) * 4 + D - 1 = 64 + (l - 10) * 4 + (D - 1) := by omega
            rw [e, hcsp]
            have eD : D - 1 + 1 = D := by omega
            rw [eD]
            omega
        · intro _ hpow
          exact absurd hpow hnpow
      · -- size = 2^l exactly: the code skips the equal-sized class below
        have heq : size = 2 ^ l := by omega
        rw [if_neg hgt] at hcfr
        have hl11 : 11 ≤ l := by
          by_contra hlt
          push_neg at hlt
          have hle : l = 10 := by omega
          subst hle
          have h10 : (2 : Nat) ^ 10 = 1024 := by norm_num
          omega
        have hcs := class_size_group l 0 hl10 hl20 (by norm_num)
        norm_num at hcs
        have hprev := class_size_group_last l hl11 hl20
        have e0 : 64 + (l - 10) * 4 + 0 = 64 + (l - 10) * 4 := by omega
        refine ⟨class_for_regular size, hcf, ?_, ?_, ?_⟩
        · rw [hcfr, e0, hcs]
          omega
        · intro hdisj
          exfalso
          rcases hdisj with hle | hnp
          · omega
          · exact hnp ⟨l, heq⟩
        · intro _ _
          have e : 64 + (l - 10) * 4 + 0 - 1 = 64 + (l - 10) * 4 - 1 := by omega
          rw [hcfr, e, hprev]
          omega

/-- C1 counterexample: at `size = 2048` the code returns class 68 (size
2560) even though class 67 has size exactly 2048, so the returned class is
not the smallest class whose size is at least `size`. -/
theorem class_for_not_minimal_at_2048 :
    class_for 2048 = some 68 ∧ class_size 68 = 2560 ∧ class_size 67 = 2048 ∧
      ¬(68 = 0 ∨ class_size (68 - 1) < 2048) := by decide

/-- C1 witness: the amended theorem applied at `size = 48`. -/
theorem class_for_spec_witness :
    ∃ c, class_for 48 = some c ∧ 48 ≤ class_size c ∧
      (((48 : Nat) ≤ TINY_CUTOFF ∨ ¬ (∃ k, (48 : Nat) = 2 ^ k)) →
        (c = 0 ∨ class_size (c - 1) < 48)) ∧
      (TINY_CUTOFF < 48 → (∃ k, (48 : Nat) = 2 ^ k) → class_size (c - 1) = 48) :=
  (class_for_spec 48).2 (by decide) (by decide)

theorem getD_range_map (f : Nat → Nat) (n idx : Nat) (h : idx < n) :
    ((List.range n).map f).getD idx 0 = f idx := by
  rw [List.getD_eq_getElem?_getD, List.getElem?_map, List.getElem?_range h]
  rfl

/-- C5 (amended): `cache_for idx` is the clamped slot count
`clamp(SCLASS_CUTOFF / CLASSES[idx].size, CACHE_MIN, CACHE_MAX)` scaled by
the class region size `CLASSES[idx].size`, not by the pointer size. -/
theorem cache_for_spec : ∀ idx, idx < NSCLASSES →
    cache_for idx =
      min (max (SCLASS_CUTOFF / class_size idx) CACHE_MIN) CACHE_MAX * class_size idx := by
  intro idx h
  show generate_cache_sizes.getD idx 0 = _
  unfold generate_cache_sizes
  rw [getD_range_map _ _ _ h]

/-- C5 counterexample: for class 0 (region size 16) the ring depth is 200
and the code returns `cache_for 0 = 3200 = 200 * 16`, not
`1600 = 200 * WORD` as the claim (slot count times pointer size) states. -/
theorem cache_for_not_ptr_scaled :
    cache_for 0 = 3200 ∧
      min (max (SCLASS_CUTOFF / class_size 0) CACHE_MIN) CACHE_MAX * WORD = 1600 ∧
      cache_for 0 ≠ min (max (SCLASS_CUTOFF / class_size 0) CACHE_MIN) CACHE_MAX * WORD := by
  decide

/-- C5 witness: the amended theorem applied at class index 0. -/
theorem cache_for_spec_witness :
    cache_for 0 =
      min (max (SCLASS_CUTOFF / class_size 0) CACHE_MIN) CACHE_MAX * class_size 0 :=
  cache_for_spec 0 (by decide)

end Classes

/-! ## Bitmap (crates/basealloc-bitmap/src/lib.rs) and Slab
(crates/basealloc-alloc/src/slab.rs)

The bitmap is modelled at bit granularity: the source packs bits into
`AtomicUsize` words, but `set`, `clear`, `get` and the wrap-around searches
act on single bits (the word masks in `iter_range`/`wrap_search` realise
exactly a first-match scan over bit indices), so one `Bool` per region bit
is observationally equivalent. The `used` counter is an `AtomicUsize` that
`set`/`clear` bump unconditionally with wrapping `fetch_add`/`fetch_sub`,
modelled as arithmetic modulo `2 ^ 64`. -/

def W64 : Nat := 2 ^ 64

inductive BitmapError where
  | InsufficientSize (avail need : Nat)
  | OutOfBounds (index size : Nat)

structure Bitmap where
  store : List Bool
  bits : Nat
  used : Nat

/-- `Bitmap::zero`: a zeroed bitmap with `bits` usable bits (the slab
allocates exactly `Bitmap::words(regions)` words of backing, so the
capacity check in the source always passes). -/
def Bitmap.zero (bits : Nat) : Bitmap :=
  { store := List.replicate bits false, bits := bits, used := 0 }

/-- `Bitmap::set`: bounds check, `fetch_or` the bit, bump `used`
(unconditionally, even if the bit was already set). -/
def Bitmap.set (bm : Bitmap) (index : Nat) : Except BitmapError Bitmap :=
  if index ≥ bm.bits then .error (.OutOfBounds index bm.bits)
  else .ok { bm with store := bm.store.set index true, used := (bm.used + 1) % W64 }

/-- `Bitmap::clear`: bounds check, `fetch_and` the bit away, decrement
`used` with wrapping `fetch_sub` (unconditionally, even if the bit was
already clear). -/
def Bitmap.clear (bm : Bitmap) (index : Nat) : Except BitmapError Bitmap :=
  if index ≥ bm.bits then .error (.OutOfBounds index bm.bits)
  else .ok { bm with store := bm.store.set index false, used := (bm.used + (W64 - 1)) % W64 }

def Bitmap.get (bm : Bitmap) (index : Nat) : Except BitmapError Bool :=
  if index ≥ bm.bits then .error (.OutOfBounds index bm.bits)
  else .ok (bm.store.getD index false)

/-- First index `i` with a clear bit in `[p, p + n)`, scanning forward;
`getD … true` makes positions outside the store count as set, mirroring
the `global_index < self.bits` guard of `iter_range`. -/
def scanClear (store : List Bool) : Nat → Nat → Option Nat
  | _, 0 => none
  | p, n + 1 => if store.getD p true = false then some p else scanClear store (p + 1) n

/-- `Bitmap::find_fc`/`find_bit`/`wrap_search`: first clear bit at or after
`start` (default 0), wrapping around to `[0, start)`; `none` when `start`
is at or past `bits` or no clear bit exists. -/
def Bitmap.find_fc (bm : Bitmap) (start : Option Nat) : Option Nat :=
  if start.getD 0 ≥ bm.bits then none
  else
    match scanClear bm.store (start.getD 0) (bm.bits - start.getD 0) with
    | some i => some i
    | none => if start.getD 0 = 0 then none else scanClear bm.store 0 (start.getD 0)

/-- `Bitmap::is_clear`: the `used` counter (not the bits) is compared
with zero. -/
def Bitmap.is_clear (bm : Bitmap) : Bool := bm.used == 0

/-- Every region bit of the bitmap is clear (the property the spec states
for `is_empty`). -/
def allClear (bm : Bitmap) : Bool := bm.store.all (fun b => !b)

inductive SlabError where
  | BitmapError (e : BitmapError)
  | OutOfMemory
  | InvalidPointer

/-- Slab state: region size (`class.0`), extent base address and length,
free bitmap and rotating cursor. The extent, bump and intrusive link
plumbing carry no allocation logic and are omitted; addresses are `Nat`. -/
structure Slab where
  size : Nat
  base : Nat
  len : Nat
  bitmap : Bitmap
  last : Nat

/-- `Slab::new`: reserve an extent of `slab_size` bytes; the bitmap gets
`regions = slab_size / class_size` bits, zeroed; cursor starts at 0. -/
def Slab.new (class_size slab_size base : Nat) : Slab :=
  { size := class_size, base := base, len := slab_size,
    bitmap := Bitmap.zero (slab_size / class_size), last := 0 }

/-- `Slab::update_last`: `last = found % bitmap.bits()`. -/
def Slab.update_last (s : Slab) (found : Nat) : Slab :=
  { s with last := found % s.bitmap.bits }

/-- `Slab::ptr_at`: `base + index * size`. -/
def Slab.ptr_at (s : Slab) (index : Nat) : Nat := s.base + index * s.size

/-- `Slab::has_ptr`: `base ≤ p < base + extent.len()`. -/
def Slab.has_ptr (s : Slab) (p : Nat) : Bool :=
  decide (s.base ≤ p) && decide (p < s.base + s.len)

/-- `Slab::index_for`. -/
def Slab.index_for (s : Slab) (p : Nat) : Option Nat :=
  if s.has_ptr p then some ((p - s.base) / s.size) else none

/-- `Slab::allocate`: find the first clear bit starting at `last` (with
wrap), set it, advance the cursor, return `base + slot * size`; lazy
extent activation is a host-memory call modelled as succeeding. -/
def Slab.allocate (s : Slab) : Slab × Except SlabError Nat :=
  match s.bitmap.find_fc (some s.last) with
  | none => (s, .error .OutOfMemory)
  | some slot =>
    match s.bitmap.set slot with
    | .error e => (s, .error (.BitmapError e))
    | .ok bm => (({ s with bitmap := bm }).update_last slot, .ok (s.ptr_at slot))

/-- `Slab::deallocate`: reject out-of-range pointers, clear the bit at
`(p - base) / size`, set `last` to that index. -/
def Slab.deallocate (s : Slab) (p : Nat) : Slab × Except SlabError Unit :=
  if s.has_ptr p then
    let index := (p - s.base) / s.size
    match s.bitmap.clear index with
    | .error e => (s, .error (.BitmapError e))
    | .ok bm => (({ s with bitmap := bm }).update_last index, .ok ())
  else (s, .error .InvalidPointer)

/-- `Slab::is_empty`. -/
def Slab.is_empty (s : Slab) : Bool := s.bitmap.is_clear

/-- State after `n` allocate calls (each call takes the state component;
a failed call leaves the state unchanged). -/
def Slab.allocState (s : Slab) : Nat → Slab
  | 0 => s
  | n + 1 => (Slab.allocState s n).allocate.1

/-- Result of the `(n+1)`-th allocate call (0-indexed `n`). -/
def Slab.allocResult (s : Slab) (n : Nat) : Except SlabError Nat :=
  (Slab.allocState s n).allocate.2

/-- Allocator-facing slab operations, for reasoning about arbitrary
interleavings of `allocate` and `deallocate`. -/
inductive SlabOp where
  | alloc
  | free (p : Nat)

def Slab.step (s : Slab) : SlabOp → Slab
  | .alloc => s.allocate.1
  | .free p => (s.deallocate p).1

def Slab.run (s : Slab) : List SlabOp → Slab
  | [] => s
  | op :: ops => Slab.run (s.step op) ops

/-- A deallocate is a good free when, if it passes the range check and its
index is in bounds, the region bit it clears is currently set (no double
free, no free of a never-allocated region). -/
def goodFreeB (s : Slab) (p : Nat) : Bool :=
  if s.has_ptr p = true ∧ (p - s.base) / s.size < s.bitmap.bits then
    s.bitmap.store.getD ((p - s.base) / s.size) false
  else true

/-- A trace is safe when every deallocate in it is a good free in the
state where it executes. -/
def SafeOps : Slab → List SlabOp → Bool
  | _, [] => true
  | s, .alloc :: ops => SafeOps (s.step .alloc) ops
  | s, .free p :: ops => goodFreeB s p && SafeOps (s.step (.free p)) ops

theorem getD_replicate {α : Type} (m i : Nat) (a d : α) :
    (List.replicate m a).getD i d = if i < m then a else d := by
  induction m generalizing i with
  | zero => simp
  | succ m ih =>
    cases i with
    | zero => simp [List.replicate_succ]
    | succ i =>
      simp only [List.replicate_succ, List.getD_cons_succ, ih]
      have e : (i + 1 < m + 1) ↔ (i < m) := by omega
      simp only [e]

theorem getD_fresh (k m i : Nat) :
    (List.replicate k true ++ List.replicate m false).getD i true =
      if i < k then true else if i < k + m then false else true := by
  induction k generalizing i with
  | zero =>
    rw [List.replicate_zero, List.nil_append, getD_replicate]
    have e0 : ¬ i < 0 := by omega
    rw [if_neg e0, Nat.zero_add]
  | succ k ih =>
    cases i with
    | zero => simp [List.replicate_succ]
    | succ i =>
      simp only [List.replicate_succ, List.cons_append, List.getD_cons_succ, ih]
      have e1 : (i + 1 < k + 1) ↔ (i < k) := by omega
      have e2 : (i + 1 < k + 1 + m) ↔ (i < k + m) := by omega
      simp only [e1, e2]

theorem set_fresh (k m : Nat) (hm : 0 < m) :
    (List.replicate k true ++ List.replicate m false).set k true =
      List.replicate (k + 1) true ++ List.replicate (m - 1) false := by
  induction k with
  | zero =>
    cases m with
    | zero => omega
    | succ m => simp [List.replicate_succ]
  | succ k ih => simp [List.replicate_succ, ih]

theorem scanClear_none (store : List Bool) (n : Nat) :
    ∀ p, (∀ i, p ≤ i → i < p + n → store.getD i true = true) → scanClear store p n = none := by
  induction n with
  | zero => intro p _; rfl
  | succ n ih =>
    intro p h
    have hp : store.getD p true = true := h p le_rfl (by omega)
    simp only [scanClear, hp]
    simp only [Bool.true_eq_false, if_false]
    exact ih (p + 1) (fun i h1 h2 => h i (by omega) (by omega))

theorem scanClear_found (store : List Bool) (n : Nat) :
    ∀ p q, store.getD q true = false → p ≤ q → q < p + n →
      (∀ i, p ≤ i → i < q → store.getD i true = true) → scanClear store p n = some q := by
  induction n with
  | zero => intro p q _ _ h _; omega
  | succ n ih =>
    intro p q hq hpq hlt hmin
    by_cases hpq0 : p = q
    · subst hpq0
      simp only [scanClear]
      rw [if_pos hq]
    · have hp : store.getD p true = true := hmin p le_rfl (by omega)
      simp only [scanClear, hp, Bool.true_eq_false, if_false]
      exact ih (p + 1) q hq (by omega) (by omega) (fun i h1 h2 => hmin i (by omega) h2)

theorem scanClear_sound (store : List Bool) (n : Nat) :
    ∀ p q, scanClear store p n = some q →
      p ≤ q ∧ q < p + n ∧ store.getD q true = false := by
  induction n with
  | zero => intro p q h; simp [scanClear] at h
  | succ n ih =>
    intro p q h
    simp only [scanClear] at h
    split at h
    · next hc =>
      obtain rfl : p = q := by injection h
      exact ⟨le_rfl, by omega, hc⟩
    · obtain ⟨h1, h2, h3⟩ := ih (p + 1) q h
      exact ⟨by omega, by omega, h3⟩

/-- State of a fresh slab of capacity `C` after `k` successful
allocations: the first `k` region bits are set, the cursor sits at
`k - 1`. -/
def freshSlab (s S base C k : Nat) : Slab :=
  { size := s, base := base, len := S,
    bitmap := { store := List.replicate k true ++ List.replicate (C - k) false,
                bits := C, used := k % W64 },
    last := k - 1 }

theorem allocate_fresh_succ (s S base C k : Nat) (hk : k < C) :
    (freshSlab s S base C k).allocate = (freshSlab s S base C (k + 1), .ok (base + k * s)) := by
  have hgetk : (List.replicate k true ++ List.replicate (C - k) false).getD k true
      = false := by
    rw [getD_fresh]
    have e1 : ¬ k < k := by omega
    have e2 : k < k + (C - k) := by omega
    rw [if_neg e1, if_pos e2]
  have hmain : scanClear (List.replicate k true ++ List.replicate (C - k) false)
      (k - 1) (C - (k - 1)) = some k := by
    apply scanClear_found _ _ _ _ hgetk (by omega) (by omega)
    intro i h1 h2
    rw [getD_fresh, if_pos (by omega)]
  have hfind : (freshSlab s S base C k).bitmap.find_fc (some (k - 1)) = some k := by
    simp only [freshSlab, Bitmap.find_fc, Option.getD_some]
    have hcond : ¬ (k - 1 ≥ C) := by omega
    rw [if_neg hcond, hmain]
  simp only [Slab.allocate, freshSlab] at hfind ⊢
  rw [hfind]
  simp only [Bitmap.set]
  have hcond2 : ¬ (k ≥ C) := by omega
  rw [if_neg hcond2]
  simp only [Slab.update_last, Slab.ptr_at]
  have hstore := set_fresh k (C - k) (by omega)
  have hm : C - k - 1 = C - (k + 1) := by omega
  rw [hm] at hstore
  have hused : (k % W64 + 1) % W64 = (k + 1) % W64 := Nat.mod_add_mod k W64 1
  have hlast : k % C = k + 1 - 1 := by
    rw [Nat.mod_eq_of_lt hk]
    omega
  simp [freshSlab, hstore, hused, hlast]

theorem allocate_fresh_oom (s S base C : Nat) :
    (freshSlab s S base C C).allocate
      = (freshSlab s S base C C, .error .OutOfMemory) := by
  have hfind : (freshSlab s S base C C).bitmap.find_fc (some (C - 1)) = none := by
    by_cases hC : C = 0
    · simp only [Bitmap.find_fc, freshSlab, Option.getD_some]
      have hcond : C - 1 ≥ C := by omega
      rw [if_pos hcond]
    · have hall : ∀ i, i < C →
          (List.replicate C true ++ List.replicate (C - C) false).getD i true = true := by
        intro i hi
        rw [getD_fresh]
        simp [hi]
      have hmain : scanClear (List.replicate C true ++ List.replicate (C - C) false)
          (C - 1) (C - (C - 1)) = none :=
        scanClear_none _ _ _ (fun i h1 h2 => hall i (by omega))
      have hwrap : scanClear (List.replicate C true ++ List.replicate (C - C) false)
          0 (C - 1) = none :=
        scanClear_none _ _ _ (fun i h1 h2 => hall i (by omega))
      simp only [Bitmap.find_fc, freshSlab, Option.getD_some]
      have hcond : ¬ (C - 1 ≥ C) := by omega
      rw [if_neg hcond, hmain]
      by_cases h0 : C - 1 = 0
      · rw [if_pos h0]
      · rw [if_neg h0]
        exact hwrap
  simp only [Slab.allocate, freshSlab] at hfind ⊢
  rw [hfind]

theorem allocState_fresh (s S base : Nat) :
    ∀ k, k ≤ S / s → Slab.allocState (Slab.new s S base) k = freshSlab s S base (S / s) k := by
  intro k
  induction k with
  | zero =>
    intro _
    simp [Slab.allocState, Slab.new, freshSlab, Bitmap.zero]
  | succ k ih =>
    intro h
    simp only [Slab.allocState]
    rw [ih (by omega), allocate_fresh_succ s S base (S / s) k (by omega)]

/-- C2: from a fresh slab with region size `s`, slab size `S` and capacity
`C = S / s`, the first `C` allocate calls succeed and return the pairwise
distinct addresses `base + i * s` for `i ∈ [0, C)`, and the `(C+1)`-th
call returns `OutOfMemory`. -/
theorem slab_fresh_allocation_run (s S base : Nat) (hs : 0 < s) :
    (∀ i, i < S / s → Slab.allocResult (Slab.new s S base) i = .ok (base + i * s)) ∧
    Slab.allocResult (Slab.new s S base) (S / s) = .error .OutOfMemory ∧
    (∀ i j, i < S / s → j < S / s → i ≠ j → base + i * s ≠ base + j * s) := by
  refine ⟨?_, ?_, ?_⟩
  · intro i hi
    unfold Slab.allocResult
    rw [allocState_fresh s S base i (by omega), allocate_fresh_succ s S base (S / s) i hi]
  · unfold Slab.allocResult
    rw [allocState_fresh s S base (S / s) le_rfl, allocate_fresh_oom]
  · intro i j hi hj hne heq
    have hmul : i * s = j * s := by omega
    exact hne (Nat.eq_of_mul_eq_mul_right hs hmul)

/-- C2 witness: a fresh slab with 4 regions of 16 bytes. -/
theorem slab_fresh_allocation_run_witness :
    (∀ i, i < 64 / 16 → Slab.allocResult (Slab.new 16 64 0) i = .ok (0 + i * 16)) ∧
    Slab.allocResult (Slab.new 16 64 0) (64 / 16) = .error .OutOfMemory ∧
    (∀ i j, i < 64 / 16 → j < 64 / 16 → i ≠ j → 0 + i * 16 ≠ 0 + j * 16) :=
  slab_fresh_allocation_run 16 64 0 (by decide)

/-- C7: on a slab whose extent length is an exact multiple of the region
size (as holds for every slab the allocator creates, since
`pages_for` yields `size / gcd(size, page) * page`), `deallocate p` returns
`InvalidPointer` exactly when `p` lies outside
`[base, base + size * regions)` and leaves the slab unchanged in that
case; for in-range `p` it returns `()`, clears the bit at
`(p - base) / size` and sets `last` to that index modulo the bit count. -/
theorem slab_deallocate_spec (σ : Slab) (p : Nat)
    (hs : 0 < σ.size) (hdvd : σ.size ∣ σ.len) (hbits : σ.bitmap.bits = σ.len / σ.size) :
    ((σ.deallocate p).2 = .error .InvalidPointer ↔
      ¬(σ.base ≤ p ∧ p < σ.base + σ.size * (σ.len / σ.size))) ∧
    (¬(σ.base ≤ p ∧ p < σ.base + σ.size * (σ.len / σ.size)) → (σ.deallocate p).1 = σ) ∧
    ((σ.base ≤ p ∧ p < σ.base + σ.size * (σ.len / σ.size)) →
      (σ.deallocate p).2 = .ok () ∧
      (σ.deallocate p).1.bitmap.store = σ.bitmap.store.set ((p - σ.base) / σ.size) false ∧
      (σ.deallocate p).1.last = ((p - σ.base) / σ.size) % σ.bitmap.bits) := by
  have hrange : σ.base + σ.size * (σ.len / σ.size) = σ.base + σ.len := by
    rw [Nat.mul_div_cancel' hdvd]
  rw [hrange]
  by_cases hin : σ.has_ptr p = true
  · have hinr : σ.base ≤ p ∧ p < σ.base + σ.len := by
      simpa [Slab.has_ptr] using hin
    have hidx : (p - σ.base) / σ.size < σ.bitmap.bits := by
      rw [hbits]
      exact Nat.div_lt_div_of_lt_of_dvd hdvd (by omega)
    have hok : σ.deallocate p =
        (({ σ with bitmap := { σ.bitmap with
              store := σ.bitmap.store.set ((p - σ.base) / σ.size) false,
              used := (σ.bitmap.used + (W64 - 1)) % W64 } }).update_last
            ((p - σ.base) / σ.size), .ok ()) := by
      simp only [Slab.deallocate, hin, if_true, Bitmap.clear]
      rw [if_neg (by omega)]
    rw [hok]
    refine ⟨?_, ?_, ?_⟩
    · simp only [Slab.update_last]
      constructor
      · intro h
        exact absurd h (by simp)
      · intro h
        exact absurd hinr h
    · intro h
      exact absurd hinr h
    · intro _
      simp [Slab.update_last]
  · have hninr : ¬(σ.base ≤ p ∧ p < σ.base + σ.len) := by
      simp only [Slab.has_ptr, Bool.and_eq_true, decide_eq_true_eq] at hin
      tauto
    have herr : σ.deallocate p = (σ, .error .InvalidPointer) := by
      simp only [Slab.deallocate]
      rw [if_neg]
      simp [hin]
    rw [herr]
    refine ⟨?_, ?_, ?_⟩
    · simp only [true_iff]
      exact hninr
    · intro _
      rfl
    · intro h
      exact absurd h hninr

/-- C7 witness: the theorem applied to a fresh 4-region slab and the
pointer to region 1. -/
theorem slab_deallocate_spec_witness :
    (((Slab.new 16 64 0).deallocate 16).2 = .error .InvalidPointer ↔
      ¬((Slab.new 16 64 0).base ≤ 16 ∧
        16 < (Slab.new 16 64 0).base +
          (Slab.new 16 64 0).size * ((Slab.new 16 64 0).len / (Slab.new 16 64 0).size))) ∧
    (¬((Slab.new 16 64 0).base ≤ 16 ∧
        16 < (Slab.new 16 64 0).base +
          (Slab.new 16 64 0).size * ((Slab.new 16 64 0).len / (Slab.new 16 64 0).size)) →
      ((Slab.new 16 64 0).deallocate 16).1 = Slab.new 16 64 0) ∧
    (((Slab.new 16 64 0).base ≤ 16 ∧
        16 < (Slab.new 16 64 0).base +
          (Slab.new 16 64 0).size * ((Slab.new 16 64 0).len / (Slab.new 16 64 0).size)) →
      ((Slab.new 16 64 0).deallocate 16).2 = .ok () ∧
      ((Slab.new 16 64 0).deallocate 16).1.bitmap.store =
        (Slab.new 16 64 0).bitmap.store.set ((16 - (Slab.new 16 64 0).base) /
          (Slab.new 16 64 0).size) false ∧
      ((Slab.new 16 64 0).deallocate 16).1.last =
        ((16 - (Slab.new 16 64 0).base) / (Slab.new 16 64 0).size) %
          (Slab.new 16 64 0).bitmap.bits) :=
  slab_deallocate_spec (Slab.new 16 64 0) 16 (by decide) (by decide) (by decide)

/-- C6 counterexample: on a fresh two-region slab, the trace
allocate, allocate, deallocate base, deallocate base (a double free of
region 0) leaves region bit 1 set while `is_empty` reports true: the
wrapping `used` counter has desynchronised from the bitmap. -/
theorem slab_is_empty_counterexample :
    (Slab.run (Slab.new 16 32 0) [.alloc, .alloc, .free 0, .free 0]).is_empty = true ∧
    (Slab.run (Slab.new 16 32 0)
      [.alloc, .alloc, .free 0, .free 0]).bitmap.store.getD 1 false = true := by
  decide

/-- The bitmap invariant: the store has exactly `bits` entries, `bits`
fits a `usize`, and the `used` counter equals the number of set bits. -/
def BmInv (bm : Bitmap) : Prop :=
  bm.store.length = bm.bits ∧ bm.bits < W64 ∧ bm.used = bm.store.count true

theorem count_true_set_true (l : List Bool) :
    ∀ i, i < l.length → l.getD i true = false →
      (l.set i true).count true = l.count true + 1 := by
  induction l with
  | nil => intro i h; simp at h
  | cons a t ih =>
    intro i hi hf
    cases i with
    | zero =>
      simp only [List.getD_cons_zero] at hf
      subst hf
      simp [List.count_cons]
    | succ i =>
      simp only [List.getD_cons_succ] at hf
      simp only [List.set_cons_succ, List.count_cons]
      rw [ih i (by simpa using hi) hf]
      ring

theorem count_true_set_false (l : List Bool) :
    ∀ i, i < l.length → l.getD i false = true →
      (l.set i false).count true + 1 = l.count true := by
  induction l with
  | nil => intro i h; simp at h
  | cons a t ih =>
    intro i hi hf
    cases i with
    | zero =>
      simp only [List.getD_cons_zero] at hf
      subst hf
      simp [List.count_cons]
    | succ i =>
      simp only [List.getD_cons_succ] at hf
      simp only [List.set_cons_succ, List.count_cons]
      rw [← ih i (by simpa using hi) hf]
      ring

theorem one_le_count (l : List Bool) :
    ∀ i, i < l.length → l.getD i false = true → 1 ≤ l.count true := by
  induction l with
  | nil => intro i h; simp at h
  | cons a t ih =>
    intro i hi hf
    cases i with
    | zero =>
      simp only [List.getD_cons_zero] at hf
      subst hf
      simp [List.count_cons]
    | succ i =>
      simp only [List.getD_cons_succ] at hf
      have := ih i (by simpa using hi) hf
      simp [List.count_cons]
      omega

theorem count_zero_iff_allClear (l : List Bool) :
    l.count true = 0 ↔ l.all (fun b => !b) = true := by
  induction l with
  | nil => simp
  | cons a t ih => cases a <;> simp [List.count_cons, ih]

theorem count_true_replicate_false (n : Nat) : (List.replicate n false).count true = 0 := by
  induction n with
  | zero => rfl
  | succ n ih => simp [List.replicate_succ, List.count_cons, ih]

theorem wrap_sub_one (W c : Nat) (hc : 1 ≤ c) (hcW : c < W) : (c + (W - 1)) % W = c - 1 := by
  have he : c + (W - 1) = W + (c - 1) := by omega
  rw [he, Nat.add_mod_left]
  exact Nat.mod_eq_of_lt (by omega)

theorem find_fc_sound (bm : Bitmap) (st q : Nat) (h : bm.find_fc (some st) = some q) :
    q < bm.bits ∧ bm.store.getD q true = false := by
  simp only [Bitmap.find_fc, Option.getD_some] at h
  split at h
  · exact absurd h (by simp)
  · next hst =>
    split at h
    · next i hscan =>
      obtain rfl : i = q := by injection h
      obtain ⟨h1, h2, h3⟩ := scanClear_sound _ _ _ _ hscan
      exact ⟨by omega, h3⟩
    · split at h
      · exact absurd h (by simp)
      · obtain ⟨h1, h2, h3⟩ := scanClear_sound _ _ _ _ h
        exact ⟨by omega, h3⟩

theorem BmInv_alloc (σ : Slab) (h : BmInv σ.bitmap) : BmInv (σ.step .alloc).bitmap := by
  obtain ⟨hlen, hW, hcnt⟩ := h
  simp only [Slab.step, Slab.allocate]
  cases hfc : σ.bitmap.find_fc (some σ.last) with
  | none => exact ⟨hlen, hW, hcnt⟩
  | some slot =>
    obtain ⟨hslot, hclear⟩ := find_fc_sound _ _ _ hfc
    simp only [Bitmap.set]
    rw [if_neg (by omega)]
    refine ⟨?_, hW, ?_⟩
    · simp only [Slab.update_last, List.length_set]
      exact hlen
    · simp only [Slab.update_last]
      have hcount := count_true_set_true σ.bitmap.store slot (by omega) hclear
      have hle : (σ.bitmap.store.set slot true).count true ≤
          (σ.bitmap.store.set slot true).length :=
        List.count_le_length true (σ.bitmap.store.set slot true)
      have hlen2 : (σ.bitmap.store.set slot true).length = σ.bitmap.store.length :=
        List.length_set σ.bitmap.store slot true
      have hlt : σ.bitmap.store.count true + 1 < W64 := by omega
      rw [hcount, hcnt, Nat.mod_eq_of_lt hlt]

theorem BmInv_free (σ : Slab) (p : Nat) (h : BmInv σ.bitmap) (hg : goodFreeB σ p = true) :
    BmInv (σ.step (.free p)).bitmap := by
  obtain ⟨hlen, hW, hcnt⟩ := h
  simp only [Slab.step, Slab.deallocate]
  by_cases hin : σ.has_ptr p = true
  · rw [if_pos hin]
    by_cases hidx : (p - σ.base) / σ.size < σ.bitmap.bits
    · have hbit : σ.bitmap.store.getD ((p - σ.base) / σ.size) false = true := by
        simp only [goodFreeB] at hg
        rw [if_pos ⟨hin, hidx⟩] at hg
        exact hg
      simp only [Bitmap.clear]
      rw [if_neg (by omega)]
      refine ⟨?_, hW, ?_⟩
      · simp only [Slab.update_last, List.length_set]
        exact hlen
      · simp only [Slab.update_last]
        have hcount := count_true_set_false σ.bitmap.store ((p - σ.base) / σ.size)
          (by omega) hbit
        have hone := one_le_count σ.bitmap.store ((p - σ.base) / σ.size) (by omega) hbit
        have hle : σ.bitmap.store.count true ≤ σ.bitmap.store.length :=
          List.count_le_length true σ.bitmap.store
        rw [hcnt, wrap_sub_one W64 _ (by omega) (by omega)]
        omega
    · simp only [Bitmap.clear]
      rw [if_pos (by omega)]
      exact ⟨hlen, hW, hcnt⟩
  · rw [if_neg hin]
    exact ⟨hlen, hW, hcnt⟩

theorem BmInv_run (ops : List SlabOp) :
    ∀ σ : Slab, BmInv σ.bitmap → SafeOps σ ops = true → BmInv (Slab.run σ ops).bitmap := by
  induction ops with
  | nil =>
    intro σ h _
    exact h
  | cons op ops ih =>
    intro σ h hsafe
    cases op with
    | alloc =>
      simp only [Slab.run]
      simp only [SafeOps] at hsafe
      exact ih _ (BmInv_alloc σ h) hsafe
    | free p =>
      simp only [SafeOps, Bool.and_eq_true] at hsafe
      simp only [Slab.run]
      exact ih _ (BmInv_free σ p h hsafe.1) hsafe.2

/-- C6 (amended): after any sequence of allocate/deallocate operations in
which every deallocate clears a currently-set region bit (no double
free), `is_empty` is true iff every region bit is clear. The claim as
stated fails for traces with a double free (see the counterexample): the
wrapping `used` counter, which `is_empty` consults, then desynchronises
from the bitmap. -/
theorem slab_is_empty_iff_no_double_free (s S base : Nat) (hW : S / s < W64)
    (ops : List SlabOp) (hsafe : SafeOps (Slab.new s S base) ops = true) :
    ((Slab.run (Slab.new s S base) ops).is_empty = true ↔
      allClear (Slab.run (Slab.new s S base) ops).bitmap = true) := by
  have hinv : BmInv (Slab.new s S base).bitmap := by
    refine ⟨by simp [Slab.new, Bitmap.zero], ?_, ?_⟩
    · simpa [Slab.new, Bitmap.zero] using hW
    · simp [Slab.new, Bitmap.zero, count_true_replicate_false]
  have hrun := BmInv_run ops _ hinv hsafe
  obtain ⟨hlen, _, hcnt⟩ := hrun
  simp only [Slab.is_empty, Bitmap.is_clear, beq_iff_eq, allClear, hcnt]
  exact count_zero_iff_allClear _

/-- C6 witness: the amended theorem applied to a two-region slab and the
trace allocate, deallocate base (a well-paired free). -/
theorem slab_is_empty_iff_no_double_free_witness :
    ((Slab.run (Slab.new 16 32 0) [.alloc, .free 0]).is_empty = true ↔
      allClear (Slab.run (Slab.new 16 32 0) [.alloc, .free 0]).bitmap = true) :=
  slab_is_empty_iff_no_double_free 16 32 0 (by decide) [.alloc, .free 0] (by decide)

/-! ## Ring (crates/basealloc-ring/src/lib.rs)

`Ring<T, N>` is a fixed-capacity circular buffer; `head`, `tail` and
`len` are `AtomicUsize` fields accessed with relaxed loads/stores by the
single owning thread, so they are plain numbers here. `len` stays within
`[0, N]` because `push` and `pop` guard before touching it, so the
counter never wraps. -/

inductive RingError (T : Type) where
  | Full (val : T)

structure Ring (T : Type) where
  buf : List T
  head : Nat
  tail : Nat
  len : Nat

/-- `Ring::new`. -/
def Ring.new (T : Type) (N : Nat) (init : T) : Ring T :=
  { buf := List.replicate N init, head := 0, tail := 0, len := 0 }

/-- `Ring::is_empty`. -/
def Ring.is_empty (r : Ring T) : Bool := r.len == 0

/-- `Ring::is_full` (capacity `N`). -/
def Ring.is_full (N : Nat) (r : Ring T) : Bool := r.len == N

/-- `Ring::next_idx`. -/
def Ring.next_idx (N current : Nat) : Nat := (current + 1) % N

/-- `Ring::push`: `Err(Full(val))` when `len == N`, otherwise write at
`head`, advance `head`, bump `len`. -/
def Ring.push (N : Nat) (r : Ring T) (val : T) : Ring T × Option (RingError T) :=
  if r.is_full N then (r, some (.Full val))
  else ({ buf := r.buf.set r.head val, head := Ring.next_idx N r.head,
          tail := r.tail, len := r.len + 1 }, none)

/-- `Ring::pop`: `None` when empty, otherwise read at `tail`, advance
`tail`, drop `len` (the source indexes `buf[tail]`, which is always in
bounds; out-of-range reads appear here as `none`). -/
def Ring.pop (N : Nat) (r : Ring T) : Option T × Ring T :=
  if r.is_empty then (none, r)
  else (r.buf.get? r.tail,
        { buf := r.buf, head := r.head, tail := Ring.next_idx N r.tail, len := r.len - 1 })

/-- Well-formedness of a ring of capacity `N`: reachable states keep the
buffer at `N` slots, `len ≤ N`, `tail` in range and `head` exactly `len`
slots after `tail` (mod `N`). -/
def RingWF (N : Nat) (r : Ring T) : Prop :=
  r.buf.length = N ∧ r.len ≤ N ∧ r.tail < N ∧ r.head = (r.tail + r.len) % N

/-- The queue a ring represents: `len` entries starting at `tail`. -/
def Ring.toList (N : Nat) (r : Ring T) : List T :=
  (List.range r.len).filterMap (fun i => r.buf.get? ((r.tail + i) % N))

theorem get?_set_ne {α : Type} (l : List α) (a : α) :
    ∀ i j, i ≠ j → (l.set i a).get? j = l.get? j := by
  induction l with
  | nil => intro i j _; simp
  | cons b t ih =>
    intro i j hne
    cases i with
    | zero =>
      cases j with
      | zero => exact absurd rfl hne
      | succ j => simp
    | succ i =>
      cases j with
      | zero => simp
      | succ j => simpa using ih i j (by omega)

theorem get?_set_self {α : Type} (l : List α) (a : α) :
    ∀ i, i < l.length → (l.set i a).get? i = some a := by
  induction l with
  | nil => intro i h; simp at h
  | cons b t ih =>
    intro i hi
    cases i with
    | zero => simp
    | succ i => simpa using ih i (by simpa using hi)

theorem mod_shift_ne (N tail i len : Nat) (hi : i < len) (hlen : len < N) :
    (tail + i) % N ≠ (tail + len) % N := by
  intro h
  have hmod : i % N = len % N := Nat.ModEq.add_left_cancel' tail h
  rw [Nat.mod_eq_of_lt (by omega), Nat.mod_eq_of_lt hlen] at hmod
  omega

/-- C10: a well-formed `Ring<T, N>` is a FIFO queue of capacity `N`:
pop on an empty ring returns `None` and changes nothing; push on a full
ring (`len == N`) returns `Full(val)` and changes nothing; otherwise push
appends `val` to the represented queue and bumps `len`; pop returns the
oldest element and drops it from the queue — so pops return pushed values
in push order. -/
theorem ring_fifo_spec (T : Type) (N : Nat) (r : Ring T) (v : T)
    (hN : 0 < N) (hWF : RingWF N r) :
    (r.len = 0 → Ring.pop N r = (none, r)) ∧
    (r.len = N → Ring.push N r v = (r, some (.Full v))) ∧
    (r.len < N →
      (Ring.push N r v).2 = none ∧
      (Ring.push N r v).1.len = r.len + 1 ∧
      RingWF N (Ring.push N r v).1 ∧
      Ring.toList N (Ring.push N r v).1 = Ring.toList N r ++ [v]) ∧
    (0 < r.len →
      (Ring.pop N r).1 = (Ring.toList N r).head? ∧
      RingWF N (Ring.pop N r).2 ∧
      Ring.toList N (Ring.pop N r).2 = (Ring.toList N r).tail) := by
  obtain ⟨hbuf, hlen, htail, hhead⟩ := hWF
  refine ⟨?_, ?_, ?_, ?_⟩
  · intro h0
    simp [Ring.pop, Ring.is_empty, h0]
  · intro hfull
    simp [Ring.push, Ring.is_full, hfull]
  · intro hlt
    have hnotfull : r.is_full N = false := by
      simp [Ring.is_full]
      omega
    have h1 : (Ring.push N r v).1 =
        { buf := r.buf.set r.head v, head := Ring.next_idx N r.head,
          tail := r.tail, len := r.len + 1 } := by
      simp [Ring.push, hnotfull]
    have h2 : (Ring.push N r v).2 = none := by
      simp [Ring.push, hnotfull]
    rw [h1, h2]
    refine ⟨rfl, rfl, ⟨?_, ?_, ?_, ?_⟩, ?_⟩
    · show (r.buf.set r.head v).length = N
      rw [List.length_set]
      exact hbuf
    · show r.len + 1 ≤ N
      omega
    · exact htail
    · show Ring.next_idx N r.head = (r.tail + (r.len + 1)) % N
      rw [Ring.next_idx, hhead, Nat.mod_add_mod]
      have e : r.tail + r.len + 1 = r.tail + (r.len + 1) := by omega
      rw [e]
    · show (List.range (r.len + 1)).filterMap
          (fun i => (r.buf.set r.head v).get? ((r.tail + i) % N)) = _
      rw [List.range_succ, List.filterMap_append]
      congr 1
      · apply List.filterMap_congr
        intro i hi
        have hilt : i < r.len := List.mem_range.mp hi
        rw [get?_set_ne]
        rw [hhead]
        exact Ne.symm (mod_shift_ne N r.tail i r.len hilt hlt)
      · have hsome : (r.buf.set r.head v).get? ((r.tail + r.len) % N) = some v := by
          rw [← hhead]
          apply get?_set_self
          rw [hbuf, hhead]
          exact Nat.mod_lt _ hN
        rw [List.filterMap_cons, List.filterMap_nil]
        rw [List.get?_eq_getElem?] at hsome
        simp [hsome]
  · intro hpos
    have hnotempty : r.is_empty = false := by
      simp [Ring.is_empty]
      omega
    have h1 : (Ring.pop N r).1 = r.buf.get? r.tail := by
      simp [Ring.pop, hnotempty]
    have h2 : (Ring.pop N r).2 =
        { buf := r.buf, head := r.head, tail := Ring.next_idx N r.tail,
          len := r.len - 1 } := by
      simp [Ring.pop, hnotempty]
    obtain ⟨m, hm⟩ : ∃ m, r.len = m + 1 := ⟨r.len - 1, by omega⟩
    have htmod : r.tail % N = r.tail := Nat.mod_eq_of_lt htail
    obtain ⟨val, hval⟩ : ∃ val, r.buf.get? r.tail = some val := by
      cases hcase : r.buf.get? r.tail with
      | none =>
        have := List.get?_eq_none.mp hcase
        omega
      | some val => exact ⟨val, rfl⟩
    have hdecomp : Ring.toList N r =
        val :: (List.range m).filterMap (fun i => r.buf.get? ((r.tail + (i + 1)) % N)) := by
      show (List.range r.len).filterMap (fun i => r.buf.get? ((r.tail + i) % N)) = _
      rw [hm, List.range_succ_eq_map, List.filterMap_cons, List.filterMap_map]
      have h0 : r.buf.get? ((r.tail + 0) % N) = some val := by
        rw [Nat.add_zero, htmod]
        exact hval
      rw [h0]
      rfl
    rw [h1, h2]
    refine ⟨?_, ⟨hbuf, ?_, ?_, ?_⟩, ?_⟩
    · rw [hdecomp, hval]
      rfl
    · show r.len - 1 ≤ N
      omega
    · show Ring.next_idx N r.tail < N
      exact Nat.mod_lt _ hN
    · show r.head = (Ring.next_idx N r.tail + (r.len - 1)) % N
      rw [hhead, Ring.next_idx, Nat.mod_add_mod]
      congr 1
      omega
    · rw [hdecomp]
      show (List.range (r.len - 1)).filterMap
          (fun i => r.buf.get? ((Ring.next_idx N r.tail + i) % N)) = _
      simp only [List.tail_cons, hm, Nat.add_sub_cancel]
      apply List.filterMap_congr
      intro i _
      rw [Ring.next_idx, Nat.mod_add_mod]
      congr 2
      omega

/-- C10 witness: the theorem applied to a well-formed two-slot ring
holding one element. -/
theorem ring_fifo_spec_witness :
    ((Ring.mk [10, 20] 1 0 1).len = 0 →
      Ring.pop 2 (Ring.mk [10, 20] 1 0 1) = (none, Ring.mk [10, 20] 1 0 1)) ∧
    ((Ring.mk [10, 20] 1 0 1).len = 2 →
      Ring.push 2 (Ring.mk [10, 20] 1 0 1) 7 =
        (Ring.mk [10, 20] 1 0 1, some (.Full 7))) ∧
    ((Ring.mk [10, 20] 1 0 1).len < 2 →
      (Ring.push 2 (Ring.mk [10, 20] 1 0 1) 7).2 = none ∧
      (Ring.push 2 (Ring.mk [10, 20] 1 0 1) 7).1.len = (Ring.mk [10, 20] 1 0 1).len + 1 ∧
      RingWF 2 (Ring.push 2 (Ring.mk [10, 20] 1 0 1) 7).1 ∧
      Ring.toList 2 (Ring.push 2 (Ring.mk [10, 20] 1 0 1) 7).1 =
        Ring.toList 2 (Ring.mk [10, 20] 1 0 1) ++ [7]) ∧
    (0 < (Ring.mk [10, 20] 1 0 1).len →
      (Ring.pop 2 (Ring.mk [10, 20] 1 0 1)).1 =
        (Ring.toList 2 (Ring.mk [10, 20] 1 0 1)).head? ∧
      RingWF 2 (Ring.pop 2 (Ring.mk [10, 20] 1 0 1)).2 ∧
      Ring.toList 2 (Ring.pop 2 (Ring.mk [10, 20] 1 0 1)).2 =
        (Ring.toList 2 (Ring.mk [10, 20] 1 0 1)).tail) :=
  ring_fifo_spec Nat 2 (Ring.mk [10, 20] 1 0 1) 7 (by decide)
    ⟨by decide, by decide, by decide, by decide⟩

/-! ## C shim (ffi/src/lib.rs) over the BaseAlloc front end (src/lib.rs)

The underlying allocator (`BaseAlloc` as `GlobalAlloc`) is abstracted by
its operations over an opaque state type: `alloc` takes the layout size
(align 1 in `malloc`) and returns the possibly-updated state and a pointer
(0 is null), `sizeofP` models `BaseAlloc::sizeof`, `dealloc` models
`GlobalAlloc::dealloc`. The ffi entry points are translated literally
against these operations. -/

structure AllocOps (S : Type) where
  alloc : S → Nat → S × Nat
  sizeofP : S → Nat → Option Nat
  dealloc : S → Nat → Nat → S

/-- `BaseAlloc::sentinel()`: `NonNull::<u8>::dangling()`, i.e. the
address `align_of::<u8>() = 1`: a fixed non-null dangling pointer. -/
def sentinel : Nat := 1

/-- `BaseAlloc::is_invalid`: null or the sentinel. -/
def is_invalid (p : Nat) : Bool := p == 0 || p == sentinel

/-- `Layout::from_size_align(size, 1)` fails iff the size exceeds
`isize::MAX`. -/
def ISIZE_MAX : Nat := 2 ^ 63 - 1

/-- ffi `malloc`: `size == 0` short-circuits to the sentinel before any
layout is built or the allocator is consulted. -/
def malloc {S : Type} (ops : AllocOps S) (st : S) (size : Nat) : S × Nat :=
  if size = 0 then (st, sentinel)
  else if size > ISIZE_MAX then (st, 0)
  else ops.alloc st size

/-- ffi `free`: null and sentinel return before `sizeof`/`dealloc` run. -/
def free {S : Type} (ops : AllocOps S) (st : S) (p : Nat) : S :=
  if is_invalid p then st
  else
    match ops.sizeofP st p with
    | none => st
    | some sz => ops.dealloc st p sz

/-- C9: for every underlying allocator and every allocator state,
`malloc(0)` returns the fixed non-null sentinel pointer without invoking
the allocator or changing its state; `free(null)` and `free(sentinel)`
return with the state unchanged; and iterating these calls any number of
times remains a no-op. -/
theorem malloc_zero_free_sentinel_spec (S : Type) (ops : AllocOps S) (st : S) :
    malloc ops st 0 = (st, sentinel) ∧
    sentinel ≠ 0 ∧
    free ops st 0 = st ∧
    free ops st sentinel = st ∧
    (∀ n, (fun t => free ops t 0)^[n] st = st) ∧
    (∀ n, (fun t => free ops t sentinel)^[n] st = st) := by
  have hfix0 : ∀ t : S, free ops t 0 = t := by
    intro t
    simp [free, is_invalid]
  have hfixs : ∀ t : S, free ops t sentinel = t := by
    intro t
    simp [free, is_invalid]
  refine ⟨by simp [malloc], by decide, hfix0 st, hfixs st, ?_, ?_⟩
  · intro n
    induction n with
    | zero => rfl
    | succ n ih => rw [Function.iterate_succ_apply, hfix0, ih]
  · intro n
    induction n with
    | zero => rfl
    | succ n ih => rw [Function.iterate_succ_apply, hfixs, ih]

/-! ## Radix tree (crates/basealloc-rtree/src/lib.rs) and ranged
registrations (crates/basealloc-alloc/src/lookup.rs, static_.rs)

`RTree<T, FANOUT>` walks a fixed number of levels; each node holds an
optional value plus `FANOUT` child-pointer slots. The functional model
rebuilds the nodes along the traversed path instead of mutating them in
place; the parent pointers of the source exist only so `prune` can walk
back up the path just traversed, which the recursive `removeGo` does
directly. All trees here are used single-writer (the arena owns its
extent tree), so the CAS loops always succeed on the first try. -/

inductive RNode (T : Type) : Type where
  | mk : Option T → List (Option (RNode T)) → RNode T

def RNode.value {T : Type} : RNode T → Option T
  | .mk v _ => v

def RNode.children {T : Type} : RNode T → List (Option (RNode T))
  | .mk _ c => c

/-- `RNode::new(None)`: no value, `FANOUT` null child slots. -/
def emptyNode (T : Type) (F : Nat) : RNode T := .mk none (List.replicate F none)

/-- `load_child`: slot `i`, null for a missing slot. -/
def childAt {T : Type} (n : RNode T) (i : Nat) : Option (RNode T) :=
  n.children.getD i none

/-- store into child slot `i`. -/
def setChild {T : Type} (n : RNode T) (i : Nat) (c : Option (RNode T)) : RNode T :=
  .mk n.value (n.children.set i c)

/-- `ensure_leaf` plus `store` along a precomputed path: materialise
missing nodes with `new_node(None)`, then set the value at the leaf;
`false` reports `AlreadyPresent`. The materialised path stays even on
failure, exactly as in the source where `ensure_leaf` has already run
when `store` rejects an occupied leaf. -/
def insertGo {T : Type} (F : Nat) (v : T) : RNode T → List Nat → RNode T × Bool
  | n, [] =>
    match n.value with
    | some _ => (n, false)
    | none => (.mk (some v) n.children, true)
  | n, i :: rest =>
    let c := (childAt n i).getD (emptyNode T F)
    let r := insertGo F v c rest
    (setChild n i (some r.1), r.2)

/-- `leaf` plus the value read of `lookup`. -/
def lookupGo {T : Type} : RNode T → List Nat → Option T
  | n, [] => n.value
  | n, i :: rest =>
    match childAt n i with
    | none => none
    | some c => lookupGo c rest

/-- `should_remove_node`: no value and all child slots null. -/
def shouldRemove {T : Type} (n : RNode T) : Bool :=
  n.value.isNone && n.children.all Option.isNone

/-- `remove` plus `prune` along the path: take the value at the leaf,
then clear each newly empty node from its parent on the way back up;
pruning stops at the first node that still has a value or a child. A
missing path returns the tree unchanged (`leaf()` fails before `prune`
runs). `none` in the result means the node itself was pruned. -/
def removeGo {T : Type} : RNode T → List Nat → Option T × Option (RNode T)
  | n, [] =>
    let n2 : RNode T := .mk none n.children
    (n.value, if shouldRemove n2 then none else some n2)
  | n, i :: rest =>
    match childAt n i with
    | none => (none, some n)
    | some c =>
      let r := removeGo c rest
      let n2 := setChild n i r.2
      (r.1, if shouldRemove n2 then none else some n2)

structure RTree (T : Type) where
  root : Option (RNode T)

def RTree.empty (T : Type) : RTree T := ⟨none⟩

inductive RTreeError where
  | AlreadyPresent
deriving DecidableEq

/-- `index_for(key, level)` for `level = 0 .. levels-1`: the MSB-first
base-`2^BPL` digits of the key (`& MASK` equals `% 2^BPL` because
`FANOUT = 2^BPL`). -/
def keyPath (L BPL key : Nat) : List Nat :=
  (List.range L).map (fun level => (key >>> ((L - 1 - level) * BPL)) % 2 ^ BPL)

/-- `RTree::insert` over a path: `ensure_root` (materialises the root
even when the later store fails), walk with `ensure_child`, `store`. -/
def RTree.insertPath {T : Type} (F : Nat) (t : RTree T) (path : List Nat) (v : T) :
    RTree T × Option RTreeError :=
  let r := insertGo F v (t.root.getD (emptyNode T F)) path
  (⟨some r.1⟩, if r.2 then none else some .AlreadyPresent)

/-- `RTree::lookup` over a path. -/
def RTree.lookupPath {T : Type} (t : RTree T) (path : List Nat) : Option T :=
  match t.root with
  | none => none
  | some r => lookupGo r path

/-- `RTree::remove` over a path; a fully pruned path clears `root`. -/
def RTree.removePath {T : Type} (t : RTree T) (path : List Nat) : Option T × RTree T :=
  match t.root with
  | none => (none, t)
  | some r =>
    let res := removeGo r path
    (res.1, ⟨res.2⟩)

/-- Keyed `insert` with `FANOUT = 2^BPL` over `L` levels. -/
def RTree.insertKey {T : Type} (L BPL : Nat) (t : RTree T) (key : Nat) (v : T) :
    RTree T × Option RTreeError :=
  t.insertPath (2 ^ BPL) (keyPath L BPL key) v

/-- Keyed `lookup`. -/
def RTree.lookupKey {T : Type} (L BPL : Nat) (t : RTree T) (key : Nat) : Option T :=
  t.lookupPath (keyPath L BPL key)

/-- Keyed `remove`. -/
def RTree.removeKey {T : Type} (L BPL : Nat) (t : RTree T) (key : Nat) :
    Option T × RTree T :=
  t.removePath (keyPath L BPL key)

/-- The chain of nodes a single insertion into an empty tree produces:
one node per path component, the value at the leaf. -/
def spine {T : Type} (F : Nat) (v : T) : List Nat → RNode T
  | [] => .mk (some v) (List.replicate F none)
  | i :: p => .mk none ((List.replicate F none).set i (some (spine F v p)))

theorem getD_set_self {α : Type} (l : List α) (a d : α) :
    ∀ i, i < l.length → (l.set i a).getD i d = a := by
  induction l with
  | nil => intro i h; simp at h
  | cons b t ih =>
    intro i hi
    cases i with
    | zero => simp [List.getD_cons_zero]
    | succ i => simpa [List.getD_cons_succ] using ih i (by simpa using hi)

theorem getD_set_ne {α : Type} (l : List α) (a d : α) :
    ∀ i j, i ≠ j → (l.set i a).getD j d = l.getD j d := by
  induction l with
  | nil => intro i j _; simp
  | cons b t ih =>
    intro i j hne
    cases i with
    | zero =>
      cases j with
      | zero => exact absurd rfl hne
      | succ j => simp [List.getD_cons_succ]
    | succ i =>
      cases j with
      | zero => simp [List.getD_cons_zero]
      | succ j => simpa [List.getD_cons_succ] using ih i j (by omega)

theorem getD_replicate_none {α : Type} (F i : Nat) :
    (List.replicate F (none : Option α)).getD i none = none := by
  rw [getD_replicate]
  split <;> rfl

theorem set_replicate_none {α : Type} :
    ∀ F i, (List.replicate F (none : Option α)).set i none = List.replicate F none := by
  intro F
  induction F with
  | zero => intro i; simp
  | succ F ih =>
    intro i
    cases i with
    | zero => simp [List.replicate_succ]
    | succ i => simp [List.replicate_succ, ih]

theorem all_isNone_replicate {α : Type} (F : Nat) :
    (List.replicate F (none : Option α)).all Option.isNone = true := by
  induction F with
  | zero => rfl
  | succ F ih => simp [List.replicate_succ, ih]

theorem childAt_empty {T : Type} (F i : Nat) : childAt (emptyNode T F) i = none := by
  simp only [childAt, emptyNode, RNode.children]
  exact getD_replicate_none F i

theorem childAt_spine_self {T : Type} (F : Nat) (v : T) (i : Nat) (p : List Nat)
    (hi : i < F) : childAt (spine F v (i :: p)) i = some (spine F v p) := by
  simp only [childAt, spine, RNode.children]
  exact getD_set_self _ _ _ i (by simpa using hi)

theorem childAt_spine_ne {T : Type} (F : Nat) (v : T) (i j : Nat) (p : List Nat)
    (hne : i ≠ j) : childAt (spine F v (i :: p)) j = none := by
  simp only [childAt, spine, RNode.children]
  rw [getD_set_ne _ _ _ i j hne]
  exact getD_replicate_none F j

theorem insertGo_empty {T : Type} (F : Nat) (v : T) :
    ∀ p : List Nat, insertGo F v (emptyNode T F) p = (spine F v p, true) := by
  intro p
  induction p with
  | nil => rfl
  | cons i rest ih =>
    simp only [insertGo, childAt_empty, Option.getD_none, ih, spine]
    rfl

theorem insertGo_spine {T : Type} (F : Nat) (v w : T) :
    ∀ p : List Nat, (∀ i ∈ p, i < F) →
      insertGo F w (spine F v p) p = (spine F v p, false) := by
  intro p
  induction p with
  | nil => intro _; rfl
  | cons i rest ih =>
    intro hp
    have hi : i < F := hp i (by simp)
    simp only [insertGo, childAt_spine_self F v i rest hi, Option.getD_some,
      ih (fun j hj => hp j (by simp [hj]))]
    simp only [setChild, spine, RNode.value, RNode.children, List.set_set]

theorem lookupGo_spine_self {T : Type} (F : Nat) (v : T) :
    ∀ p : List Nat, (∀ i ∈ p, i < F) → lookupGo (spine F v p) p = some v := by
  intro p
  induction p with
  | nil => intro _; rfl
  | cons i rest ih =>
    intro hp
    have hi : i < F := hp i (by simp)
    simp only [lookupGo, childAt_spine_self F v i rest hi]
    exact ih (fun j hj => hp j (by simp [hj]))

theorem lookupGo_spine_ne {T : Type} (F : Nat) (v : T) :
    ∀ p p2 : List Nat, (∀ i ∈ p, i < F) → p2 ≠ p → lookupGo (spine F v p) p2 = none := by
  intro p
  induction p with
  | nil =>
    intro p2 _ hne
    cases p2 with
    | nil => exact absurd rfl hne
    | cons j rest2 =>
      simp only [lookupGo, spine, childAt, RNode.children, getD_replicate_none]
  | cons i rest ih =>
    intro p2 hp hne
    have hi : i < F := hp i (by simp)
    cases p2 with
    | nil => rfl
    | cons j rest2 =>
      by_cases hij : j = i
      · subst hij
        simp only [lookupGo, childAt_spine_self F v j rest hi]
        exact ih rest2 (fun x hx => hp x (by simp [hx])) (by intro h; exact hne (by rw [h]))
      · simp only [lookupGo, childAt_spine_ne F v i j rest (fun h => hij h.symm)]

theorem removeGo_spine {T : Type} (F : Nat) (v : T) :
    ∀ p : List Nat, (∀ i ∈ p, i < F) → removeGo (spine F v p) p = (some v, none) := by
  intro p
  induction p with
  | nil =>
    intro _
    simp only [removeGo, spine, RNode.value, RNode.children, shouldRemove,
      Option.isNone_none, all_isNone_replicate, Bool.and_self, if_pos]
  | cons i rest ih =>
    intro hp
    have hi : i < F := hp i (by simp)
    simp only [removeGo, childAt_spine_self F v i rest hi,
      ih (fun j hj => hp j (by simp [hj]))]
    simp only [setChild, spine, RNode.value, RNode.children, List.set_set,
      set_replicate_none, shouldRemove, Option.isNone_none, all_isNone_replicate,
      Bool.and_self, if_pos]

theorem keyPath_mem_lt (L BPL key : Nat) : ∀ i ∈ keyPath L BPL key, i < 2 ^ BPL := by
  intro i hi
  simp only [keyPath, List.mem_map] at hi
  obtain ⟨level, _, hlevel⟩ := hi
  rw [← hlevel]
  exact Nat.mod_lt _ (pow_pos (by norm_num) BPL)

/-- C8: starting from the empty radix tree, `insert(k, v)` succeeds; a
second insert at `k` returns `AlreadyPresent` and leaves the tree — in
particular the stored value — unchanged; `remove(k)` returns `v` and
prunes the whole path so that the root slot is back to null; `lookup(k)`
afterwards returns `none`. -/
theorem rtree_single_key_roundtrip (T : Type) (L BPL key : Nat) (v w : T) :
    (RTree.insertKey L BPL (RTree.empty T) key v).2 = none ∧
    (RTree.insertKey L BPL (RTree.insertKey L BPL (RTree.empty T) key v).1 key w).2
      = some .AlreadyPresent ∧
    (RTree.insertKey L BPL (RTree.insertKey L BPL (RTree.empty T) key v).1 key w).1
      = (RTree.insertKey L BPL (RTree.empty T) key v).1 ∧
    RTree.lookupKey L BPL (RTree.insertKey L BPL (RTree.empty T) key v).1 key = some v ∧
    (RTree.removeKey L BPL (RTree.insertKey L BPL (RTree.empty T) key v).1 key).1
      = some v ∧
    (RTree.removeKey L BPL (RTree.insertKey L BPL (RTree.empty T) key v).1 key).2.root
      = none ∧
    RTree.lookupKey L BPL
      (RTree.removeKey L BPL (RTree.insertKey L BPL (RTree.empty T) key v).1 key).2 key
      = none := by
  have hp := keyPath_mem_lt L BPL key
  have h1 : RTree.insertKey L BPL (RTree.empty T) key v
      = (⟨some (spine (2 ^ BPL) v (keyPath L BPL key))⟩, none) := by
    simp only [RTree.insertKey, RTree.insertPath, RTree.empty, Option.getD_none,
      insertGo_empty, if_pos]
  rw [h1]
  have h2 : RTree.insertKey L BPL (⟨some (spine (2 ^ BPL) v (keyPath L BPL key))⟩ : RTree T)
      key w = (⟨some (spine (2 ^ BPL) v (keyPath L BPL key))⟩, some .AlreadyPresent) := by
    simp only [RTree.insertKey, RTree.insertPath, Option.getD_some,
      insertGo_spine (2 ^ BPL) v w (keyPath L BPL key) hp]
    rfl
  have h3 : RTree.removeKey L BPL
      (⟨some (spine (2 ^ BPL) v (keyPath L BPL key))⟩ : RTree T) key
      = (some v, ⟨none⟩) := by
    simp only [RTree.removeKey, RTree.removePath,
      removeGo_spine (2 ^ BPL) v (keyPath L BPL key) hp]
  rw [h2, h3]
  refine ⟨rfl, rfl, rfl, ?_, rfl, rfl, rfl⟩
  simp only [RTree.lookupKey, RTree.lookupPath]
  exact lookupGo_spine_self (2 ^ BPL) v (keyPath L BPL key) hp

/-- Well-formed nodes: every node reachable from the allocator's trees
has exactly `FANOUT` child slots. -/
inductive NodeWF {T : Type} (F : Nat) : RNode T → Prop where
  | mk : ∀ (v : Option T) (cs : List (Option (RNode T))),
      cs.length = F →
      (∀ c ∈ cs, ∀ n, c = some n → NodeWF F n) →
      NodeWF F (.mk v cs)

def TreeWF {T : Type} (F : Nat) (t : RTree T) : Prop :=
  ∀ r, t.root = some r → NodeWF F r

theorem getD_none_mem {α : Type} (l : List (Option α)) :
    ∀ i c, l.getD i none = some c → some c ∈ l := by
  induction l with
  | nil => intro i c h; simp at h
  | cons a t ih =>
    intro i c h
    cases i with
    | zero =>
      simp only [List.getD_cons_zero] at h
      rw [← h]
      exact List.mem_cons_self a t
    | succ i =>
      simp only [List.getD_cons_succ] at h
      exact List.mem_cons_of_mem _ (ih i c h)

theorem NodeWF_empty (T : Type) (F : Nat) : NodeWF F (emptyNode T F) := by
  refine .mk none _ (by simp) ?_
  intro c hc n hcn
  rw [List.eq_of_mem_replicate hc] at hcn
  exact Option.noConfusion hcn

theorem NodeWF_children_len {T : Type} {F : Nat} {n : RNode T} (h : NodeWF F n) :
    n.children.length = F := by
  cases h with
  | mk v cs hlen hmem => exact hlen

theorem NodeWF_childAt {T : Type} {F : Nat} {n c : RNode T} {i : Nat}
    (h : NodeWF F n) (hc : childAt n i = some c) : NodeWF F c := by
  cases h with
  | mk v cs hlen hmem =>
    exact hmem _ (getD_none_mem cs i c hc) c rfl

theorem NodeWF_childD {T : Type} {F : Nat} (i : Nat) {n : RNode T} (h : NodeWF F n) :
    NodeWF F ((childAt n i).getD (emptyNode T F)) := by
  cases hch : childAt n i with
  | none =>
    rw [Option.getD_none]
    exact NodeWF_empty T F
  | some c =>
    rw [Option.getD_some]
    exact NodeWF_childAt h hch

theorem NodeWF_insertGo {T : Type} (F : Nat) (v : T) :
    ∀ (p : List Nat) (n : RNode T), NodeWF F n → NodeWF F (insertGo F v n p).1 := by
  intro p
  induction p with
  | nil =>
    intro n h
    obtain ⟨w, cs⟩ := n
    cases h with
    | mk _ _ hlen hmem =>
      cases w with
      | some u => exact .mk (some u) cs hlen hmem
      | none => exact .mk (some v) cs hlen hmem
  | cons i rest ih =>
    intro n h
    have hrec := ih _ (NodeWF_childD i h)
    obtain ⟨w, cs⟩ := n
    cases h with
    | mk _ _ hlen hmem =>
      show NodeWF F (.mk w (cs.set i
        (some (insertGo F v ((childAt (.mk w cs) i).getD (emptyNode T F)) rest).1)))
      refine .mk w _ ?_ ?_
      · rw [List.length_set]
        exact hlen
      · intro c hc m hcm
        rcases List.mem_or_eq_of_mem_set hc with hmem2 | heq
        · exact hmem c hmem2 m hcm
        · rw [heq] at hcm
          injection hcm with hh
          rw [← hh]
          exact hrec

theorem lookupGo_emptyNode {T : Type} (F : Nat) :
    ∀ p : List Nat, lookupGo (emptyNode T F) p = none := by
  intro p
  cases p with
  | nil => rfl
  | cons i rest => simp [lookupGo, childAt_empty]

theorem insertGo_lookup_self {T : Type} (F : Nat) (v : T) :
    ∀ (p : List Nat) (n : RNode T), NodeWF F n → (∀ i ∈ p, i < F) →
      (insertGo F v n p).2 = true → lookupGo (insertGo F v n p).1 p = some v := by
  intro p
  induction p with
  | nil =>
    intro n h _ hok
    obtain ⟨w, cs⟩ := n
    cases w with
    | some u => exact absurd hok (by simp [insertGo, RNode.value])
    | none => rfl
  | cons i rest ih =>
    intro n h hp hok
    have hi : i < F := hp i (by simp)
    have hc0 := NodeWF_childD i h
    obtain ⟨w, cs⟩ := n
    have hlen : cs.length = F := NodeWF_children_len h
    show lookupGo (setChild (.mk w cs) i
      (some (insertGo F v ((childAt (.mk w cs) i).getD (emptyNode T F)) rest).1))
      (i :: rest) = some v
    simp only [lookupGo, setChild, childAt, RNode.children, RNode.value]
    rw [getD_set_self _ _ _ i (by rw [hlen]; exact hi)]
    exact ih _ hc0 (fun j hj => hp j (by simp [hj])) hok

theorem insertGo_lookup_other {T : Type} (F : Nat) (v : T) :
    ∀ (p p2 : List Nat) (n : RNode T), NodeWF F n → (∀ i ∈ p, i < F) → p2 ≠ p →
      lookupGo (insertGo F v n p).1 p2 = lookupGo n p2 := by
  intro p
  induction p with
  | nil =>
    intro p2 n h _ hne
    obtain ⟨w, cs⟩ := n
    cases p2 with
    | nil => exact absurd rfl hne
    | cons j rest2 =>
      cases w with
      | some u => rfl
      | none => rfl
  | cons i rest ih =>
    intro p2 n h hp hne
    have hi : i < F := hp i (by simp)
    have hc0 := NodeWF_childD i h
    obtain ⟨w, cs⟩ := n
    have hlen : cs.length = F := NodeWF_children_len h
    cases p2 with
    | nil => rfl
    | cons j rest2 =>
      by_cases hij : j = i
      · subst hij
        have hrest : rest2 ≠ rest := by
          intro hh
          exact hne (by rw [hh])
        show lookupGo (setChild (.mk w cs) j
          (some (insertGo F v ((childAt (.mk w cs) j).getD (emptyNode T F)) rest).1))
          (j :: rest2) = lookupGo (.mk w cs) (j :: rest2)
        simp only [lookupGo, setChild, childAt, RNode.children]
        rw [getD_set_self _ _ _ j (by rw [hlen]; exact hi)]
        cases hch : cs.getD j none with
        | some c =>
          have hcwf : NodeWF F c := NodeWF_childAt h (by simpa [childAt, RNode.children] using hch)
          have hstep := ih rest2 c hcwf (fun x hx => hp x (List.mem_cons_of_mem _ hx)) hrest
          simpa using hstep
        | none =>
          simp only [Option.getD_none]
          rw [insertGo_empty F v rest]
          exact lookupGo_spine_ne F v rest rest2 (fun x hx => hp x (by simp [hx])) hrest
      · show lookupGo (setChild (.mk w cs) i
          (some (insertGo F v ((childAt (.mk w cs) i).getD (emptyNode T F)) rest).1))
          (j :: rest2) = lookupGo (.mk w cs) (j :: rest2)
        simp only [lookupGo, setChild, childAt, RNode.children]
        rw [getD_set_ne _ _ _ i j (fun hh => hij hh.symm)]

theorem TreeWF_empty (T : Type) (F : Nat) : TreeWF F (RTree.empty T) := by
  intro r h
  exact Option.noConfusion h

theorem TreeWF_insertKey {T : Type} (L BPL : Nat) (t : RTree T) (key : Nat) (v : T)
    (h : TreeWF (2 ^ BPL) t) : TreeWF (2 ^ BPL) (RTree.insertKey L BPL t key v).1 := by
  intro r hr
  simp only [RTree.insertKey, RTree.insertPath] at hr
  injection hr with hr
  rw [← hr]
  apply NodeWF_insertGo
  cases hroot : t.root with
  | none =>
    rw [Option.getD_none]
    exact NodeWF_empty T (2 ^ BPL)
  | some r0 =>
    rw [Option.getD_some]
    exact h r0 hroot

theorem insertKey_ok_lookup_self {T : Type} (L BPL : Nat) (t : RTree T) (key : Nat) (v : T)
    (h : TreeWF (2 ^ BPL) t) (hok : (RTree.insertKey L BPL t key v).2 = none) :
    RTree.lookupKey L BPL (RTree.insertKey L BPL t key v).1 key = some v := by
  have hroot : NodeWF (2 ^ BPL) (t.root.getD (emptyNode T (2 ^ BPL))) := by
    cases hr : t.root with
    | none =>
      rw [Option.getD_none]
      exact NodeWF_empty T (2 ^ BPL)
    | some r0 =>
      rw [Option.getD_some]
      exact h r0 hr
  have hb : (insertGo (2 ^ BPL) v (t.root.getD (emptyNode T (2 ^ BPL)))
      (keyPath L BPL key)).2 = true := by
    by_contra hfalse
    simp only [RTree.insertKey, RTree.insertPath] at hok
    rw [Bool.not_eq_true] at hfalse
    rw [if_neg (by rw [hfalse]; exact Bool.false_ne_true)] at hok
    exact Option.noConfusion hok
  simp only [RTree.insertKey, RTree.insertPath, RTree.lookupKey, RTree.lookupPath]
  exact insertGo_lookup_self (2 ^ BPL) v (keyPath L BPL key) _ hroot
    (keyPath_mem_lt L BPL key) hb

theorem insertKey_lookup_other {T : Type} (L BPL : Nat) (t : RTree T) (key key2 : Nat)
    (v : T) (h : TreeWF (2 ^ BPL) t)
    (hne : keyPath L BPL key2 ≠ keyPath L BPL key) :
    RTree.lookupKey L BPL (RTree.insertKey L BPL t key v).1 key2
      = RTree.lookupKey L BPL t key2 := by
  simp only [RTree.insertKey, RTree.insertPath, RTree.lookupKey, RTree.lookupPath]
  cases hroot : t.root with
  | some r0 =>
    rw [Option.getD_some]
    exact insertGo_lookup_other (2 ^ BPL) v (keyPath L BPL key) (keyPath L BPL key2) r0
      (h r0 hroot) (keyPath_mem_lt L BPL key) hne
  | none =>
    rw [Option.getD_none]
    rw [insertGo_lookup_other (2 ^ BPL) v (keyPath L BPL key) (keyPath L BPL key2) _
      (NodeWF_empty T (2 ^ BPL)) (keyPath_mem_lt L BPL key) hne]
    exact lookupGo_emptyNode (2 ^ BPL) (keyPath L BPL key2)

/-- Sequential keyed insertion as performed by `range_execute` in
lookup.rs: insert `v` at each key in order and stop at the first failure,
returning the error with the entries already inserted left in place
(this code path performs no rollback, unlike `static_.rs`). -/
def insertSeq {T : Type} (L BPL : Nat) (v : T) : RTree T → List Nat → RTree T × Option RTreeError
  | t, [] => (t, none)
  | t, k :: ks =>
    match RTree.insertKey L BPL t k v with
    | (t2, some e) => (t2, some e)
    | (t2, none) => insertSeq L BPL v t2 ks

theorem TreeWF_insertSeq {T : Type} (L BPL : Nat) (v : T) :
    ∀ (keys : List Nat) (t : RTree T), TreeWF (2 ^ BPL) t →
      TreeWF (2 ^ BPL) (insertSeq L BPL v t keys).1 := by
  intro keys
  induction keys with
  | nil => intro t h; exact h
  | cons k ks ih =>
    intro t h
    have h2 := TreeWF_insertKey L BPL t k v h
    cases hstep : RTree.insertKey L BPL t k v with
    | mk t2 e =>
      rw [hstep] at h2
      cases e with
      | some err =>
        simp only [insertSeq, hstep]
        exact h2
      | none =>
        simp only [insertSeq, hstep]
        exact ih t2 h2

theorem insertSeq_lookup_preserved {T : Type} (L BPL : Nat) (v : T) :
    ∀ (keys : List Nat) (t : RTree T) (k2 : Nat), TreeWF (2 ^ BPL) t →
      (∀ k ∈ keys, keyPath L BPL k2 ≠ keyPath L BPL k) →
      RTree.lookupKey L BPL (insertSeq L BPL v t keys).1 k2
        = RTree.lookupKey L BPL t k2 := by
  intro keys
  induction keys with
  | nil => intro t k2 _ _; rfl
  | cons k ks ih =>
    intro t k2 hWF hne
    have hother := insertKey_lookup_other L BPL t k k2 v hWF (hne k (by simp))
    have h2 := TreeWF_insertKey L BPL t k v hWF
    cases hstep : RTree.insertKey L BPL t k v with
    | mk t2 e =>
      rw [hstep] at h2 hother
      cases e with
      | some err =>
        simp only [insertSeq, hstep]
        exact hother
      | none =>
        simp only [insertSeq, hstep]
        rw [ih t2 k2 h2 (fun x hx => hne x (List.mem_cons_of_mem _ hx))]
        exact hother

theorem insertSeq_ok_lookup {T : Type} (L BPL : Nat) (v : T) :
    ∀ (keys : List Nat) (t : RTree T), TreeWF (2 ^ BPL) t →
      (insertSeq L BPL v t keys).2 = none →
      keys.Pairwise (fun a b => keyPath L BPL a ≠ keyPath L BPL b) →
      ∀ k ∈ keys, RTree.lookupKey L BPL (insertSeq L BPL v t keys).1 k = some v := by
  intro keys
  induction keys with
  | nil => intro t _ _ _ k hk; exact absurd hk (List.not_mem_nil k)
  | cons k0 ks ih =>
    intro t hWF hok hpw k hk
    have hWF2 := TreeWF_insertKey L BPL t k0 v hWF
    have hself := insertKey_ok_lookup_self L BPL t k0 v hWF
    cases hstep : RTree.insertKey L BPL t k0 v with
    | mk t2 e =>
      rw [hstep] at hWF2 hself
      cases e with
      | some err =>
        simp only [insertSeq, hstep] at hok
        exact Option.noConfusion hok
      | none =>
        have hok2 : (insertSeq L BPL v t2 ks).2 = none := by
          simp only [insertSeq, hstep] at hok
          exact hok
        rw [List.pairwise_cons] at hpw
        obtain ⟨hhead, htail⟩ := hpw
        simp only [insertSeq, hstep]
        rcases List.mem_cons.mp hk with hk0 | hks
        · subst hk0
          rw [insertSeq_lookup_preserved L BPL v ks t2 k hWF2 hhead]
          exact hself rfl
        · exact ih t2 hWF2 hok2 htail k hks

/-- Numeric value of an MSB-first digit path (Horner evaluation). -/
def pathVal (BPL : Nat) (p : List Nat) : Nat :=
  p.foldl (fun acc d => acc * 2 ^ BPL + d) 0

theorem foldl_pathVal (BPL : Nat) :
    ∀ (p : List Nat) (a : Nat),
      p.foldl (fun acc d => acc * 2 ^ BPL + d) a
        = a * 2 ^ (p.length * BPL) + pathVal BPL p := by
  intro p
  induction p with
  | nil => intro a; simp [pathVal]
  | cons d p ih =>
    intro a
    simp only [List.foldl_cons, List.length_cons]
    rw [ih (a * 2 ^ BPL + d)]
    have hv : pathVal BPL (d :: p) = d * 2 ^ (p.length * BPL) + pathVal BPL p := by
      show List.foldl (fun acc d => acc * 2 ^ BPL + d) (0 * 2 ^ BPL + d) p
        = d * 2 ^ (p.length * BPL) + pathVal BPL p
      rw [Nat.zero_mul, Nat.zero_add, ih d]
    rw [hv]
    have hpow : (2 : Nat) ^ ((p.length + 1) * BPL) = 2 ^ (p.length * BPL) * 2 ^ BPL := by
      rw [← pow_add]
      congr 1
      ring
    rw [hpow]
    ring

theorem keyPath_len (L BPL key : Nat) : (keyPath L BPL key).length = L := by
  simp [keyPath]

theorem keyPath_succ (L BPL key : Nat) :
    keyPath (L + 1) BPL key = (key >>> (L * BPL)) % 2 ^ BPL :: keyPath L BPL key := by
  simp only [keyPath, List.range_succ_eq_map, List.map_cons, List.map_map, List.cons.injEq]
  refine ⟨?_, ?_⟩
  · have e : L + 1 - 1 - 0 = L := by omega
    rw [e]
  · apply List.map_congr_left
    intro l hl
    show key >>> ((L + 1 - 1 - (l + 1)) * BPL) % 2 ^ BPL
      = key >>> ((L - 1 - l) * BPL) % 2 ^ BPL
    have e : L + 1 - 1 - (l + 1) = L - 1 - l := by omega
    rw [e]

theorem pathVal_keyPath (BPL : Nat) :
    ∀ (L key : Nat), pathVal BPL (keyPath L BPL key) = key % 2 ^ (L * BPL) := by
  intro L
  induction L with
  | zero =>
    intro key
    simp [keyPath, pathVal, Nat.mod_one]
  | succ L ih =>
    intro key
    rw [keyPath_succ]
    simp only [pathVal, List.foldl_cons, Nat.zero_mul, Nat.zero_add]
    rw [foldl_pathVal BPL (keyPath L BPL key) (key >>> (L * BPL) % 2 ^ BPL)]
    rw [keyPath_len]
    have hv : pathVal BPL (keyPath L BPL key) = key % 2 ^ (L * BPL) := ih key
    rw [hv]
    rw [Nat.shiftRight_eq_div_pow]
    have hsplit : key % (2 ^ (L * BPL) * 2 ^ BPL)
        = key % 2 ^ (L * BPL) + 2 ^ (L * BPL) * (key / 2 ^ (L * BPL) % 2 ^ BPL) :=
      Nat.mod_mul
    have hpow : (2 : Nat) ^ ((L + 1) * BPL) = 2 ^ (L * BPL) * 2 ^ BPL := by
      rw [← pow_add]
      congr 1
      ring
    rw [hpow, hsplit]
    ring

theorem keyPath_inj (L BPL : Nat) {k1 k2 : Nat}
    (h1 : k1 < 2 ^ (L * BPL)) (h2 : k2 < 2 ^ (L * BPL))
    (he : keyPath L BPL k1 = keyPath L BPL k2) : k1 = k2 := by
  have hc := congrArg (pathVal BPL) he
  rw [pathVal_keyPath, pathVal_keyPath, Nat.mod_eq_of_lt h1, Nat.mod_eq_of_lt h2] at hc
  exact hc

/-- Modelled from the spec: `page_align_down(value)` (used throughout
lookup.rs; its definition lives in the platform prelude outside src/)
rounds an address down to the start of its page, `value & !(page_size - 1)`,
i.e. `value - value % page_size` for a power-of-two page size. -/
def page_align_down (ps v : Nat) : Nat := v - v % ps

theorem page_align_down_eq_div (ps v : Nat) : page_align_down ps v = ps * (v / ps) := by
  have h := Nat.div_add_mod v ps
  simp only [page_align_down]
  omega

theorem page_align_down_mono (ps : Nat) {a b : Nat} (h : a ≤ b) :
    page_align_down ps a ≤ page_align_down ps b := by
  rw [page_align_down_eq_div, page_align_down_eq_div]
  exact Nat.mul_le_mul_left ps (Nat.div_le_div_right h)

theorem page_align_down_mod (ps v : Nat) : page_align_down ps v % ps = 0 := by
  rw [page_align_down_eq_div]
  exact Nat.mul_mod_right ps _

theorem page_align_down_of_aligned (ps v : Nat) (h : v % ps = 0) :
    page_align_down ps v = v := by
  simp [page_align_down, h]

/-- The addresses visited by `ExtentTree::range_execute(start, stop, step)`:
the loop runs `current` from `start` while `current <= stop`, stepping by
`step`, so it visits `start + i*step` for `0 ≤ i ≤ (stop - start) / step`. -/
def pageKeys (start stop step : Nat) : List Nat :=
  if stop < start then []
  else (List.range ((stop - start) / step + 1)).map (fun i => start + i * step)

theorem pageKeys_mem {start stop step : Nat} (hle : start ≤ stop) (k : Nat) :
    k ∈ pageKeys start stop step ↔ ∃ i, i ≤ (stop - start) / step ∧ k = start + i * step := by
  simp only [pageKeys, if_neg (by omega : ¬ stop < start), List.mem_map, List.mem_range]
  constructor
  · rintro ⟨i, hi, rfl⟩
    exact ⟨i, by omega, rfl⟩
  · rintro ⟨i, hi, rfl⟩
    exact ⟨i, by omega, rfl⟩

theorem pageKeys_le {start stop step : Nat} (hle : start ≤ stop) :
    ∀ k ∈ pageKeys start stop step, k ≤ stop := by
  intro k hk
  rw [pageKeys_mem hle] at hk
  obtain ⟨i, hi, rfl⟩ := hk
  have h1 : i * step ≤ (stop - start) / step * step := Nat.mul_le_mul_right step hi
  have h2 : (stop - start) / step * step ≤ stop - start := Nat.div_mul_le_self _ _
  omega

theorem pageKeys_nodup (start stop step : Nat) (hstep : 0 < step) :
    (pageKeys start stop step).Nodup := by
  unfold pageKeys
  by_cases h : stop < start
  · rw [if_pos h]
    exact List.nodup_nil
  · rw [if_neg h]
    refine List.Nodup.map ?_ (List.nodup_range _)
    intro a b hab
    have hab2 : start + a * step = start + b * step := hab
    have hm : a * step = b * step := by omega
    exact Nat.eq_of_mul_eq_mul_right hstep hm

theorem pageKeys_pairwise_paths (L BPL start stop step : Nat) (hstep : 0 < step)
    (hstop : stop < 2 ^ (L * BPL)) (hle : start ≤ stop) :
    (pageKeys start stop step).Pairwise
      (fun a b => keyPath L BPL a ≠ keyPath L BPL b) := by
  have hnd : (pageKeys start stop step).Pairwise (fun a b => a ≠ b) :=
    pageKeys_nodup start stop step hstep
  refine List.Pairwise.imp_of_mem ?_ hnd
  intro a b ha hb hne he
  exact hne (keyPath_inj L BPL (lt_of_le_of_lt (pageKeys_le hle a ha) hstop)
    (lt_of_le_of_lt (pageKeys_le hle b hb) hstop) he)

/-- `LookupError` of lookup.rs (the variants relevant to the registration
path: radix-tree failures are wrapped, range overflow cannot occur over
`Nat`, `NotFound` is used by unregister/lookup). -/
inductive LookupError where
  | Tree (e : RTreeError)
  | RangeOverflow
  | NotFound
deriving DecidableEq

/-- `ExtentTree::register` (lookup.rs): for an empty extent do nothing;
otherwise compute the page range `page_align_down(base)` to
`page_align_down(base + len - 1)` and insert `info` at every page of the
range via `range_execute`, propagating the first insert failure. -/
def ExtentTree.register {T : Type} (L BPL ps : Nat) (t : RTree T) (base len : Nat)
    (info : T) : RTree T × Option LookupError :=
  if len = 0 then (t, none)
  else
    Prod.map id (Option.map LookupError.Tree)
      (insertSeq L BPL info t
        (pageKeys (page_align_down ps base) (page_align_down ps (base + len - 1)) ps))

/-- `ExtentTree::lookup` (lookup.rs): page-align the address down, then
look the page key up in the tree. -/
def ExtentTree.lookup {T : Type} (L BPL ps : Nat) (t : RTree T) (addr : Nat) : Option T :=
  RTree.lookupKey L BPL t (page_align_down ps addr)

/-- C4: after a successful `ExtentTree::register` of an extent the tree
holds an entry at EVERY page of the extent's range (not only at the first
and last page as the claim states): looking up any `start + i*ps` within
the range finds `info`. -/
theorem extent_register_entry_at_every_page {T : Type} (L BPL ps : Nat) (t : RTree T)
    (base len : Nat) (info : T) (hps : 0 < ps) (hlen : 0 < len)
    (hWF : TreeWF (2 ^ BPL) t)
    (hbound : page_align_down ps (base + len - 1) < 2 ^ (L * BPL))
    (hok : (ExtentTree.register L BPL ps t base len info).2 = none) :
    ∀ i ≤ (page_align_down ps (base + len - 1) - page_align_down ps base) / ps,
      ExtentTree.lookup L BPL ps (ExtentTree.register L BPL ps t base len info).1
        (page_align_down ps base + i * ps) = some info := by
  intro i hi
  have hle : page_align_down ps base ≤ page_align_down ps (base + len - 1) :=
    page_align_down_mono ps (by omega)
  have hlz : ¬ len = 0 := by omega
  simp only [ExtentTree.register, if_neg hlz, Prod.map_snd] at hok
  simp only [ExtentTree.register, if_neg hlz, Prod.map_fst, id_eq]
  have hok2 : (insertSeq L BPL info t (pageKeys (page_align_down ps base)
      (page_align_down ps (base + len - 1)) ps)).2 = none := by
    cases hcc : (insertSeq L BPL info t (pageKeys (page_align_down ps base)
        (page_align_down ps (base + len - 1)) ps)).2 with
    | none => rfl
    | some e =>
      rw [hcc] at hok
      exact Option.noConfusion hok
  have hkmem : page_align_down ps base + i * ps ∈ pageKeys (page_align_down ps base)
      (page_align_down ps (base + len - 1)) ps :=
    (pageKeys_mem hle _).mpr ⟨i, hi, rfl⟩
  have hlk := insertSeq_ok_lookup L BPL info _ t hWF hok2
    (pageKeys_pairwise_paths L BPL _ _ ps hps hbound hle) _ hkmem
  simp only [ExtentTree.lookup]
  have hal : page_align_down ps (page_align_down ps base + i * ps)
      = page_align_down ps base + i * ps := by
    apply page_align_down_of_aligned
    rw [Nat.add_mul_mod_self_right]
    exact page_align_down_mod ps base
  rw [hal]
  exact hlk

/-- A successful three-page registration, checked at the interior page. -/
theorem extent_register_entry_at_every_page_witness :
    0 < 4 ∧ 0 < 12 ∧ page_align_down 4 (4 + 12 - 1) < 2 ^ (2 * 2) ∧
    (ExtentTree.register 2 2 4 (RTree.empty Nat) 4 12 7).2 = none ∧
    1 ≤ (page_align_down 4 (4 + 12 - 1) - page_align_down 4 4) / 4 ∧
    ExtentTree.lookup 2 2 4 (ExtentTree.register 2 2 4 (RTree.empty Nat) 4 12 7).1
      (page_align_down 4 4 + 1 * 4) = some 7 := by
  have hok : (ExtentTree.register 2 2 4 (RTree.empty Nat) 4 12 7).2 = none := by decide
  exact ⟨by decide, by decide, by decide, hok, by decide,
    extent_register_entry_at_every_page 2 2 4 (RTree.empty Nat) 4 12 7 (by decide) (by decide)
      (TreeWF_empty Nat (2 ^ 2)) (by decide) hok 1 (by decide)⟩

/-- Registering a three-page extent (pages 4, 8, 12; page size 4) succeeds
and a lookup at the strictly interior page 8 finds the owner entry, refuting
the claim that interior pages hold no entry. -/
theorem extent_register_interior_counterexample :
    (ExtentTree.register 2 2 4 (RTree.empty Nat) 4 12 7).2 = none ∧
    ExtentTree.lookup 2 2 4 (ExtentTree.register 2 2 4 (RTree.empty Nat) 4 12 7).1 8
      = some 7 := by
  decide

/-- C3: `ExtentTree::register` does not roll back on a mid-range insert
failure. Registering a two-page extent (pages 4 and 8, page size 4) into a
tree whose page-8 key is already occupied fails with AlreadyPresent, yet
the entry this same call inserted at page 4 — absent before the call — is
still present afterwards, so a failed registration does not leave the tree
as it was. -/
theorem extent_register_no_rollback :
    (ExtentTree.register 2 2 4 (RTree.insertKey 2 2 (RTree.empty Nat) 8 9).1 4 8 7).2
      = some (LookupError.Tree RTreeError.AlreadyPresent) ∧
    RTree.lookupKey 2 2 (RTree.insertKey 2 2 (RTree.empty Nat) 8 9).1 4 = none ∧
    ExtentTree.lookup 2 2 4
      (ExtentTree.register 2 2 4 (RTree.insertKey 2 2 (RTree.empty Nat) 8 9).1 4 8 7).1 4
      = some 7 := by
  decide

end Basealloc
